import Mathlib

/-!
# Verification of the FeaturePulse crawler and change-detection core

Shallow embedding of `backend/utils/crawler.py` and `backend/utils/utils.py`.

Python strings are modelled as `List Char` (Python strings are sequences of
code points); the public wrappers take Lean `String`s and work on `.data`.

The library functions the source calls are modelled from CPython 3.11
`urllib/parse.py` (`urljoin`, `urldefrag`, `urlparse`, `urlsplit`,
`urlunparse`, `urlunsplit`), from `hashlib.sha256` (full SHA-256 over the
UTF-8 encoding), from `difflib.unified_diff` (at the level of its observable
contract used here: it yields nothing when the two line sequences are equal,
and file headers followed by hunk lines otherwise) and from BeautifulSoup
(documents are modelled post-parsing as node trees; `get_text` collects the
plain text nodes — bs4 ≥ 4.9 excludes comments and other non-text strings
from `get_text` by default).

Deliberate simplifications, noted where they matter: the `ValueError`s
CPython's `urlsplit` can raise for bracketed IPv6 hosts and for non-ASCII
netloc characters are not modelled (no claim concerns such URLs), and
Python's Unicode-aware `str.lower`/`\s` are modelled on their ASCII subset.
-/

namespace FeaturePulse

/-! ## Python string primitives (on `List Char`) -/

/-- Index of the first occurrence of `c`, as in Python `s.find(c)` (as an
`Option` instead of `-1`). -/
def charIdx (c : Char) : List Char → Option Nat
  | [] => none
  | d :: ds => if d = c then some 0 else (charIdx c ds).map (· + 1)

/-- Python `s.find(c, start)`. -/
def charIdxFrom (c : Char) (cs : List Char) (start : Nat) : Option Nat :=
  (charIdx c (cs.drop start)).map (· + start)

/-- Index of the last occurrence of `c`, as in Python `s.rfind(c)`. -/
def charRIdx (c : Char) (cs : List Char) : Option Nat :=
  (charIdx c cs.reverse).map (fun i => cs.length - 1 - i)

/-- Python `s.split(sep, 1)` for a single-character separator: splits at the
first occurrence of `c`, which is kept in neither half. -/
def splitFirst (c : Char) : List Char → Option (List Char × List Char)
  | [] => none
  | d :: ds =>
    if d = c then some ([], ds)
    else (splitFirst c ds).map (fun p => (d :: p.1, p.2))

/-- Helper for `splitChar`: the accumulator holds the current piece in
reverse. -/
def splitCharAux (c : Char) : List Char → List Char → List (List Char)
  | [], acc => [acc.reverse]
  | d :: ds, acc =>
    if d = c then acc.reverse :: splitCharAux c ds []
    else splitCharAux c ds (d :: acc)

/-- Python `s.split(sep)` for a single-character separator. -/
def splitChar (c : Char) (cs : List Char) : List (List Char) :=
  splitCharAux c cs []

/-- Python `sep.join(parts)` for a single-character separator. -/
def joinChar (c : Char) : List (List Char) → List Char
  | [] => []
  | [x] => x
  | x :: xs => x ++ c :: joinChar c xs

/-- Python `s.rstrip('/')`: remove every trailing `'/'`. -/
def rstripSlashes (cs : List Char) : List Char :=
  (cs.reverse.dropWhile (· = '/')).reverse

/-- ASCII lowering; Python `str.lower` restricted to ASCII (the only case the
crawler's URLs exercise). -/
def lowerAscii (cs : List Char) : List Char := cs.map Char.toLower

/-! ## CPython 3.11 `urllib.parse` model -/

/-- `urllib.parse.uses_relative`. -/
def uses_relative : List (List Char) :=
  ["", "ftp", "http", "gopher", "nntp", "imap", "wais", "file", "https",
   "shttp", "mms", "prospero", "rtsp", "rtspu", "sftp", "svn", "svn+ssh",
   "ws", "wss"].map String.data

/-- `urllib.parse.uses_netloc`. -/
def uses_netloc : List (List Char) :=
  ["", "ftp", "http", "gopher", "nntp", "telnet", "imap", "wais", "file",
   "mms", "https", "shttp", "snews", "prospero", "rtsp", "rtspu", "rsync",
   "svn", "svn+ssh", "sftp", "nfs", "git", "git+ssh", "ws", "wss"].map String.data

/-- `urllib.parse.uses_params`. -/
def uses_params : List (List Char) :=
  ["", "ftp", "hdl", "prospero", "http", "imap", "https", "shttp", "rtsp",
   "rtspu", "sip", "sips", "mms", "sftp", "tel"].map String.data

/-- `urllib.parse.scheme_chars` membership. -/
def isSchemeChar (c : Char) : Bool :=
  c.isAlpha || c.isDigit || c = '+' || c = '-' || c = '.'

/-- Membership in `_UNSAFE_URL_BYTES_TO_REMOVE` (`\t`, `\r`, `\n`). -/
def unsafeChar (c : Char) : Bool :=
  c = '\t' || c = '\r' || c = '\n'

/-- Removal of `_UNSAFE_URL_BYTES_TO_REMOVE`, applied by `urlsplit` to its
input and default scheme (WHATWG rule). -/
def removeUnsafe (cs : List Char) : List Char :=
  cs.filter (fun c => !unsafeChar c)

/-- Result of `urlsplit`: `<scheme>://<netloc>/<path>?<query>#<fragment>`. -/
structure USplit where
  scheme : List Char
  netloc : List Char
  path : List Char
  query : List Char
  fragment : List Char
deriving DecidableEq

/-- `urllib.parse._splitnetloc(url, 2)`, applied here to the part after the
leading `"//"`: the netloc extends to the first of `/?#`. -/
def netlocSplit : List Char → List Char × List Char
  | [] => ([], [])
  | c :: cs =>
    if c = '/' || c = '?' || c = '#' then ([], c :: cs)
    else
      let p := netlocSplit cs
      (c :: p.1, p.2)

/-- Scheme detection step of `urlsplit`: `i = url.find(':')`, accepted when
`i > 0`, the first character is an ASCII letter and everything before the
colon is a scheme character; the scheme is lowercased. -/
def schemeSplit (url : List Char) : Option (List Char × List Char) :=
  match charIdx ':' url with
  | none => none
  | some i =>
    if 0 < i ∧ (url.headD ' ').isAlpha ∧ (url.take i).all isSchemeChar then
      some (lowerAscii (url.take i), url.drop (i + 1))
    else none

/-- The netloc step of `urlsplit`: when the rest starts with `"//"`, the
netloc runs to the first of `/?#`. -/
def netlocStage (rest : List Char) : List Char × List Char :=
  if rest.take 2 = ['/', '/'] then netlocSplit (rest.drop 2)
  else ([], rest)

/-- The fragment step of `urlsplit`: `url.split('#', 1)` when `'#'` occurs. -/
def fragSplit (u : List Char) : List Char × List Char :=
  match splitFirst '#' u with
  | some (a, b) => (a, b)
  | none => (u, [])

/-- The query step of `urlsplit`: `url.split('?', 1)` when `'?'` occurs. -/
def querySplit (u : List Char) : List Char × List Char :=
  match splitFirst '?' u with
  | some (a, b) => (a, b)
  | none => (u, [])

/-- CPython 3.11 `urllib.parse.urlsplit(url, scheme)` with
`allow_fragments=True` (the only mode the source uses).  The `ValueError`
branches for unbalanced IPv6 brackets and non-ASCII netloc characters are not
modelled. -/
def urlsplitC (url0 dscheme0 : List Char) : USplit :=
  let url1 := removeUnsafe url0
  let ds := removeUnsafe dscheme0
  let p1 := match schemeSplit url1 with
    | some (sch, rest) => (sch, rest)
    | none => (ds, url1)
  let p2 := netlocStage p1.2
  let p3 := fragSplit p2.2
  let p4 := querySplit p3.1
  ⟨p1.1, p2.1, p4.1, p4.2, p3.2⟩

/-- Result of `urlparse`: `urlsplit` plus the `;params` of the last path
segment. -/
structure UParse where
  scheme : List Char
  netloc : List Char
  path : List Char
  params : List Char
  query : List Char
  fragment : List Char
deriving DecidableEq

/-- `urllib.parse._splitparams` (only reached when `';'` occurs in the
path). -/
def splitparams (url : List Char) : List Char × List Char :=
  match charRIdx '/' url with
  | some j =>
    match charIdxFrom ';' url j with
    | some i => (url.take i, url.drop (i + 1))
    | none => (url, [])
  | none =>
    match charIdx ';' url with
    | some i => (url.take i, url.drop (i + 1))
    | none => (url, [])

/-- CPython 3.11 `urllib.parse.urlparse(url, scheme)`. -/
def urlparseC (url ds : List Char) : UParse :=
  let s := urlsplitC url ds
  if s.scheme ∈ uses_params ∧ s.path.contains ';' then
    let p := splitparams s.path
    ⟨s.scheme, s.netloc, p.1, p.2, s.query, s.fragment⟩
  else
    ⟨s.scheme, s.netloc, s.path, [], s.query, s.fragment⟩

/-- CPython 3.11 `urllib.parse.urlunsplit`. -/
def urlunsplitC (scheme netloc url query fragment : List Char) : List Char :=
  let url :=
    if netloc ≠ [] ∨ (scheme ≠ [] ∧ scheme ∈ uses_netloc ∧ url.take 2 ≠ ['/', '/']) then
      let u2 := if url ≠ [] ∧ url.take 1 ≠ ['/'] then '/' :: url else url
      '/' :: '/' :: (netloc ++ u2)
    else url
  let url := if scheme ≠ [] then scheme ++ ':' :: url else url
  let url := if query ≠ [] then url ++ '?' :: query else url
  if fragment ≠ [] then url ++ '#' :: fragment else url

/-- CPython 3.11 `urllib.parse.urlunparse`. -/
def urlunparseC (scheme netloc path params query fragment : List Char) : List Char :=
  urlunsplitC scheme netloc
    (if params ≠ [] then path ++ ';' :: params else path) query fragment

/-- The Python slice assignment `segments[1:-1] = filter(None, segments[1:-1])`
in `urljoin`: drop empty strings strictly between the first and last
element. -/
def filterMiddle (l : List (List Char)) : List (List Char) :=
  match l with
  | [] => []
  | [x] => [x]
  | x :: xs => x :: (xs.dropLast.filter (fun s => decide (s ≠ []))) ++ [xs.getLastD []]

/-- The `..`/`.` resolution loop of `urljoin` (`resolved_path`). -/
def resolveSegments (segments : List (List Char)) : List (List Char) :=
  segments.foldl
    (fun acc seg =>
      if seg = ['.', '.'] then acc.dropLast
      else if seg = ['.'] then acc
      else acc ++ [seg])
    []

/-- CPython 3.11 `urllib.parse.urljoin`. -/
def urljoinC (base url : List Char) : List Char :=
  if base = [] then url
  else if url = [] then base
  else
    let b := urlparseC base []
    let u := urlparseC url b.scheme
    if u.scheme ≠ b.scheme ∨ u.scheme ∉ uses_relative then url
    else if u.scheme ∈ uses_netloc ∧ u.netloc ≠ [] then
      urlunparseC u.scheme u.netloc u.path u.params u.query u.fragment
    else
      let netloc := if u.scheme ∈ uses_netloc then b.netloc else u.netloc
      if u.path = [] ∧ u.params = [] then
        let query := if u.query = [] then b.query else u.query
        urlunparseC u.scheme netloc b.path b.params query u.fragment
      else
        let baseParts0 := splitChar '/' b.path
        let baseParts :=
          if baseParts0.getLastD [] ≠ [] then baseParts0.dropLast else baseParts0
        let segments :=
          if u.path.take 1 = ['/'] then splitChar '/' u.path
          else filterMiddle (baseParts ++ splitChar '/' u.path)
        let resolved0 := resolveSegments segments
        let resolved :=
          if segments.getLastD [] = ['.'] ∨ segments.getLastD [] = ['.', '.'] then
            resolved0 ++ [[]]
          else resolved0
        let joined := joinChar '/' resolved
        let path := if joined = [] then ['/'] else joined
        urlunparseC u.scheme netloc path u.params u.query u.fragment

/-- CPython 3.11 `urllib.parse.urldefrag` (first component = defragmented
URL, second = fragment). -/
def urldefragC (url : List Char) : List Char × List Char :=
  if url.contains '#' then
    let p := urlparseC url []
    (urlunparseC p.scheme p.netloc p.path p.params p.query [], p.fragment)
  else (url, [])

/-- `urljoin` on Lean strings. -/
def urljoin (base url : String) : String := ⟨urljoinC base.data url.data⟩

/-- Defragmented part of `urldefrag` on Lean strings. -/
def urldefragFst (url : String) : String := ⟨(urldefragC url.data).1⟩

/-- `urlparse(url).netloc` on Lean strings (used for `base_domain`). -/
def urlparseNetloc (url : String) : String := ⟨(urlparseC url.data []).netloc⟩

/-! ## `Crawler.normalize_url` and `Crawler.should_crawl_url`
(`backend/utils/crawler.py`, lines 105–154) -/

/-- `Crawler.normalize_url(url, base_url)`: resolve against the base, drop the
fragment, then `if normalized_url.endswith('/') and normalized_url !=
base_url.rstrip('/') + '/': normalized_url = normalized_url.rstrip('/')`. -/
def normalize_url (url base_url : String) : String :=
  let absolute_url := urljoinC base_url.data url.data
  let normalized_url := (urldefragC absolute_url).1
  if normalized_url.getLast? = some '/' ∧
      normalized_url ≠ rstripSlashes base_url.data ++ ['/'] then
    ⟨rstripSlashes normalized_url⟩
  else ⟨normalized_url⟩

/-- The `skip_extensions` deny-list of `should_crawl_url`. -/
def skip_extensions : List String :=
  [".pdf", ".jpg", ".jpeg", ".png", ".gif", ".zip", ".doc", ".docx", ".mp4", ".mp3"]

/-- `Crawler.should_crawl_url(url, base_domain)`.  The surrounding
`try/except` is not modelled because the modelled `urlparse` is total (its
unmodelled `ValueError` branches concern IPv6 brackets and non-ASCII
netlocs only). -/
def should_crawl_url (url : String) (base_domain : String) : Bool :=
  let parsed := urlparseC url.data []
  if parsed.scheme = [] ∨ (parsed.scheme ≠ "http".data ∧ parsed.scheme ≠ "https".data) then
    false
  else if parsed.netloc ≠ [] ∧ parsed.netloc ≠ base_domain.data then
    false
  else if skip_extensions.any (fun ext => ext.data.isSuffixOf (lowerAscii url.data)) then
    false
  else if parsed.scheme = "mailto".data ∨ parsed.scheme = "tel".data ∨
      parsed.scheme = "javascript".data then
    false
  else true

/-! ## `Crawler.infinite_scroll` (`backend/utils/crawler.py`, lines 80–100)

The page's height reports are the only observable the loop consumes; they are
modelled as the sequence `h : Nat → Int` of successive
`document.body.scrollHeight` evaluations: `h 0` is the measurement taken
before the loop, and `h i` (for `i ≥ 1`) the one taken after the `i`-th
scroll.  The function returns how many scroll steps
(`window.scrollTo(0, ...)`) the loop performs. -/

/-- One pass of the `for _ in range(max_scrolls)` loop: scroll (counted),
measure, break when the new height equals `last_height`, else update
`last_height`. -/
def infinite_scroll_go (h : Nat → Int) (last_height : Int) (i : Nat) : Nat → Nat
  | 0 => 0
  | fuel + 1 =>
    let new_height := h i
    if new_height = last_height then 1
    else 1 + infinite_scroll_go h new_height (i + 1) fuel

/-- Number of scroll steps `Crawler.infinite_scroll` performs for height
sequence `h` and the given `max_scrolls` cap. -/
def infinite_scroll_steps (h : Nat → Int) (max_scrolls : Nat) : Nat :=
  infinite_scroll_go h (h 0) 1 max_scrolls

/-! ## `backend/utils/utils.py`: HTML cleaning, hashing, diffing

An HTML document is modelled after BeautifulSoup's parse: a tree of text
nodes, comment nodes and elements (tag names lowercased by the html.parser
builder). -/

mutual
/-- A parsed HTML node (BeautifulSoup view of the document). -/
inductive Node where
  | text (s : String)
  | comment (s : String)
  | element (tag : String) (children : NodeList)
/-- Children lists, as a dedicated inductive so that structural recursion
over the tree reduces definitionally. -/
inductive NodeList where
  | nil
  | cons (n : Node) (l : NodeList)
end

mutual
/-- `for tag in soup(["script", "style"]): tag.extract()` — remove every
script/style element together with its whole subtree. -/
def extractScriptStyleN : Node → Option Node
  | .text s => some (.text s)
  | .comment s => some (.comment s)
  | .element tag cs =>
    if tag = "script" ∨ tag = "style" then none
    else some (.element tag (extractScriptStyleL cs))
def extractScriptStyleL : NodeList → NodeList
  | .nil => .nil
  | .cons n l =>
    match extractScriptStyleN n with
    | none => extractScriptStyleL l
    | some n2 => .cons n2 (extractScriptStyleL l)
end

mutual
/-- The strings `soup.get_text` collects, in document order: the plain text
nodes.  Comments (and other `NavigableString` subclasses) are excluded by
`get_text` since bs4 4.9. -/
def textStringsN : Node → List String
  | .text s => [s]
  | .comment _ => []
  | .element _ cs => textStringsL cs
def textStringsL : NodeList → List String
  | .nil => []
  | .cons n l => textStringsN n ++ textStringsL l
end

/-- Python `sep.join(parts)`. -/
def pyJoin (sep : String) : List String → String
  | [] => ""
  | [x] => x
  | x :: xs => x ++ sep ++ pyJoin sep xs

/-- `soup.get_text(separator=" ")`: join all collected strings with `" "`. -/
def get_text (doc : NodeList) : String :=
  pyJoin " " (textStringsL doc)

/-- Python's `\s` (ASCII subset; the Unicode space characters Python also
matches are not exercised by any claim). -/
def pyIsSpace (c : Char) : Bool :=
  c = ' ' || c = '\t' || c = '\n' || c = '\r' || c = '\x0b' || c = '\x0c'

/-- `re.sub(r"\s+", " ", text)`: replace each maximal whitespace run by one
space.  The flag records whether the previous character belonged to a run. -/
def subWsGo (inRun : Bool) : List Char → List Char
  | [] => []
  | c :: cs =>
    if pyIsSpace c then
      if inRun then subWsGo true cs else ' ' :: subWsGo true cs
    else c :: subWsGo false cs

/-- Python `str.strip()`: drop leading and trailing whitespace. -/
def pyStrip (cs : List Char) : List Char :=
  ((cs.dropWhile pyIsSpace).reverse.dropWhile pyIsSpace).reverse

/-- `clean_html` on a parsed document: extract script/style subtrees, take
`get_text(separator=" ")`, collapse whitespace runs, strip the ends. -/
def clean_html (doc : NodeList) : String :=
  let text := get_text (extractScriptStyleL doc)
  ⟨pyStrip (subWsGo false text.data)⟩

/-! ### `hash_content`: SHA-256 of the UTF-8 encoded text (hashlib model) -/

/-- 2^32; 32-bit words are `Nat`s reduced modulo this. -/
def M32 : Nat := 4294967296

/-- 32-bit right rotation. -/
def rotr32 (n x : Nat) : Nat := ((x >>> n) ||| (x <<< (32 - n))) % M32

/-- The SHA-256 round constants. -/
def shaK : List Nat := [
  1116352408, 1899447441, 3049323471, 3921009573,
  961987163, 1508970993, 2453635748, 2870763221,
  3624381080, 310598401, 607225278, 1426881987,
  1925078388, 2162078206, 2614888103, 3248222580,
  3835390401, 4022224774, 264347078, 604807628,
  770255983, 1249150122, 1555081692, 1996064986,
  2554220882, 2821834349, 2952996808, 3210313671,
  3336571891, 3584528711, 113926993, 338241895,
  666307205, 773529912, 1294757372, 1396182291,
  1695183700, 1986661051, 2177026350, 2456956037,
  2730485921, 2820302411, 3259730800, 3345764771,
  3516065817, 3600352804, 4094571909, 275423344,
  430227734, 506948616, 659060556, 883997877,
  958139571, 1322822218, 1537002063, 1747873779,
  1955562222, 2024104815, 2227730452, 2361852424,
  2428436474, 2756734187, 3204031479, 3329325298]

/-- The SHA-256 initial hash state. -/
def shaH0 : List Nat :=
  [1779033703, 3144134277, 1013904242, 2773480762,
   1359893119, 2600822924, 528734635, 1541459225]

/-- SHA-256 padding: append `0x80`, zeros, and the 64-bit big-endian bit
length, reaching a multiple of 64 bytes. -/
def padMsg (msg : List Nat) : List Nat :=
  let len := msg.length
  let bitLen := len * 8
  let zeros := (64 - ((len + 9) % 64)) % 64
  msg ++ [0x80] ++ List.replicate zeros 0 ++
    [(bitLen >>> 56) % 256, (bitLen >>> 48) % 256, (bitLen >>> 40) % 256,
     (bitLen >>> 32) % 256, (bitLen >>> 24) % 256, (bitLen >>> 16) % 256,
     (bitLen >>> 8) % 256, bitLen % 256]

/-- Big-endian bytes to 32-bit words. -/
def toWords : List Nat → List Nat
  | b0 :: b1 :: b2 :: b3 :: rest =>
    (b0 <<< 24 ||| b1 <<< 16 ||| b2 <<< 8 ||| b3) :: toWords rest
  | _ => []

/-- SHA-256 σ0. -/
def smallSigma0 (x : Nat) : Nat := rotr32 7 x ^^^ rotr32 18 x ^^^ (x >>> 3)
/-- SHA-256 σ1. -/
def smallSigma1 (x : Nat) : Nat := rotr32 17 x ^^^ rotr32 19 x ^^^ (x >>> 10)
/-- SHA-256 Σ0. -/
def bigSigma0 (x : Nat) : Nat := rotr32 2 x ^^^ rotr32 13 x ^^^ rotr32 22 x
/-- SHA-256 Σ1. -/
def bigSigma1 (x : Nat) : Nat := rotr32 6 x ^^^ rotr32 11 x ^^^ rotr32 25 x

/-- Message-schedule extension: grow the 16 block words to 64. -/
def extendW (w : List Nat) : Nat → List Nat
  | 0 => w
  | fuel + 1 =>
    let n := w.length
    let w2 := w ++ [(smallSigma1 (w.getD (n - 2) 0) + w.getD (n - 7) 0 +
                     smallSigma0 (w.getD (n - 15) 0) + w.getD (n - 16) 0) % M32]
    extendW w2 fuel

/-- SHA-256 Ch. -/
def chF (x y z : Nat) : Nat := (x &&& y) ^^^ ((x ^^^ 4294967295) &&& z)
/-- SHA-256 Maj. -/
def majF (x y z : Nat) : Nat := (x &&& y) ^^^ (x &&& z) ^^^ (y &&& z)

/-- One SHA-256 compression round on the 8-word state. -/
def compressStep (st : List Nat) (kw : Nat × Nat) : List Nat :=
  match st with
  | [a, b, c, d, e, f, g, h] =>
    let t1 := (h + bigSigma1 e + chF e f g + kw.1 + kw.2) % M32
    let t2 := (bigSigma0 a + majF a b c) % M32
    [(t1 + t2) % M32, a, b, c, (d + t1) % M32, e, f, g]
  | st => st

/-- Process one 64-byte block. -/
def processBlock (h : List Nat) (block : List Nat) : List Nat :=
  let w := extendW (toWords block) 48
  let st := (shaK.zip w).foldl compressStep h
  (h.zip st).map (fun p => (p.1 + p.2) % M32)

/-- Cut a padded message into 64-byte blocks (fuel-driven, structurally
recursive; the fuel is the message length). -/
def chunks64 : List Nat → Nat → List (List Nat)
  | [], _ => []
  | l, 0 => [l]
  | l, fuel + 1 => l.take 64 :: chunks64 (l.drop 64) fuel

/-- SHA-256 of a byte list, as eight 32-bit words. -/
def sha256Words (msg : List Nat) : List Nat :=
  let padded := padMsg msg
  (chunks64 padded padded.length).foldl processBlock shaH0

/-- Lowercase hex digit. -/
def hexDigit (n : Nat) : Char := "0123456789abcdef".data.getD n '0'

/-- Eight hex digits of a 32-bit word. -/
def wordHex (w : Nat) : List Char :=
  [hexDigit ((w >>> 28) % 16), hexDigit ((w >>> 24) % 16),
   hexDigit ((w >>> 20) % 16), hexDigit ((w >>> 16) % 16),
   hexDigit ((w >>> 12) % 16), hexDigit ((w >>> 8) % 16),
   hexDigit ((w >>> 4) % 16), hexDigit (w % 16)]

/-- UTF-8 encoding of one code point. -/
def utf8Bytes (c : Char) : List Nat :=
  let n := c.toNat
  if n < 0x80 then [n]
  else if n < 0x800 then [0xc0 ||| (n >>> 6), 0x80 ||| (n &&& 0x3f)]
  else if n < 0x10000 then
    [0xe0 ||| (n >>> 12), 0x80 ||| ((n >>> 6) &&& 0x3f), 0x80 ||| (n &&& 0x3f)]
  else
    [0xf0 ||| (n >>> 18), 0x80 ||| ((n >>> 12) &&& 0x3f),
     0x80 ||| ((n >>> 6) &&& 0x3f), 0x80 ||| (n &&& 0x3f)]

/-- `hash_content(content)`: `hashlib.sha256(content.encode("utf-8")).hexdigest()`. -/
def hash_content (content : String) : String :=
  ⟨((sha256Words (content.data.flatMap utf8Bytes)).map wordHex).flatten⟩

/-- `clean_and_hash(html)` on a parsed document: the cleaned text and its
hash. -/
def clean_and_hash (doc : NodeList) : String × String :=
  let cleaned := clean_html doc
  (cleaned, hash_content cleaned)

/-! ### `diff_text` and `detect_changes` -/

/-- Python `str.splitlines()`: split at the universal line boundaries
(`\r\n` counts as one boundary); no trailing empty line for a trailing
terminator. -/
def pyIsLineBreak (c : Char) : Bool :=
  c = '\n' || c = '\r' || c = '\x0b' || c = '\x0c' ||
  c = '\x1c' || c = '\x1d' || c = '\x1e' || c = '\x85' ||
  c = '\u2028' || c = '\u2029'

/-- Worker for `splitlines`; the accumulator holds the current line in
reverse. -/
def splitlinesGo (acc : List Char) : List Char → List String
  | [] => if acc = [] then [] else [⟨acc.reverse⟩]
  | '\r' :: '\n' :: cs => ⟨acc.reverse⟩ :: splitlinesGo [] cs
  | c :: cs =>
    if pyIsLineBreak c then ⟨acc.reverse⟩ :: splitlinesGo [] cs
    else splitlinesGo (c :: acc) cs

/-- Python `s.splitlines()`. -/
def splitlines (s : String) : List String :=
  splitlinesGo [] s.data

/-- `difflib.unified_diff(a, b, fromfile="old", tofile="new", lineterm="")`,
modelled at the level of its observable contract: the generator yields
nothing when the two line sequences are equal (every opcode group is
`equal`, so no group is emitted), and otherwise yields the two file-header
lines followed by hunk content; the hunk body is modelled as the plain
minus/plus listing of the differing sequences. -/
def unified_diff (a b : List String) : List String :=
  if a = b then []
  else
    ["--- old", "+++ new"] ++ a.map (fun l => "-" ++ l) ++ b.map (fun l => "+" ++ l)

/-- `diff_text(old_text, new_text)`: join the unified diff of the
`splitlines` of the two texts with newlines. -/
def diff_text (old_text new_text : String) : String :=
  pyJoin "\n" (unified_diff (splitlines old_text) (splitlines new_text))

/-- The dict returned by `detect_changes`. -/
structure ChangeRecord where
  old_hash : String
  new_hash : String
  diff : String
  changed : Bool
deriving DecidableEq

/-- `detect_changes(old_text, new_text)`. -/
def detect_changes (old_text new_text : String) : ChangeRecord :=
  let old_hash := hash_content old_text
  let new_hash := hash_content new_text
  let diff := diff_text old_text new_text
  ⟨old_hash, new_hash, diff, old_hash != new_hash⟩

/-! ### Whitespace tokens and document-similarity relations

Used to analyse when two parsed documents extract to the same cleaned text:
the collapse-and-strip pipeline of `clean_html` maps a string to its
whitespace-delimited words joined by single spaces, so extraction is stable
exactly under changes that preserve those word sequences. -/

/-- Worker for `wsTokens`; the accumulator holds the current word in
reverse. -/
def wsTokensGo (acc : List Char) : List Char → List (List Char)
  | [] => if acc = [] then [] else [acc.reverse]
  | c :: cs =>
    if pyIsSpace c then
      if acc = [] then wsTokensGo [] cs else acc.reverse :: wsTokensGo [] cs
    else wsTokensGo (c :: acc) cs

/-- The whitespace-delimited words of a character list (as in Python
`s.split()`). -/
def wsTokens (cs : List Char) : List (List Char) :=
  wsTokensGo [] cs

/-- Delete every whitespace character. -/
def dropWs (cs : List Char) : List Char := cs.filter (fun c => !pyIsSpace c)

/-- Whether the last character is whitespace. -/
def endsInWs (cs : List Char) : Bool :=
  match cs.getLast? with
  | some c => pyIsSpace c
  | none => false

mutual
/-- The relation of claim C3, literally: the two nodes differ at most in the
content of script/style elements, the content of comments, and in
whitespace (corresponding text nodes are equal once every whitespace
character is deleted). -/
def wsOnlyDiffN : Node → Node → Bool
  | .text s1, .text s2 => dropWs s1.data == dropWs s2.data
  | .comment _, .comment _ => true
  | .element t1 c1, .element t2 c2 =>
    t1 == t2 &&
      (if t1 = "script" ∨ t1 = "style" then true else wsOnlyDiffL c1 c2)
  | _, _ => false
/-- `wsOnlyDiffN` on children lists. -/
def wsOnlyDiffL : NodeList → NodeList → Bool
  | .nil, .nil => true
  | .cons n1 l1, .cons n2 l2 => wsOnlyDiffN n1 n2 && wsOnlyDiffL l1 l2
  | _, _ => false
end

mutual
/-- Token-preserving similarity: like `wsOnlyDiffN`, but corresponding text
nodes must agree on their whitespace-delimited word sequences (whitespace
churn between words only — never whitespace inserted inside a word or
removed between two words). -/
def similarN : Node → Node → Bool
  | .text s1, .text s2 => wsTokens s1.data == wsTokens s2.data
  | .comment _, .comment _ => true
  | .element t1 c1, .element t2 c2 =>
    t1 == t2 &&
      (if t1 = "script" ∨ t1 = "style" then true else similarL c1 c2)
  | _, _ => false
/-- `similarN` on children lists. -/
def similarL : NodeList → NodeList → Bool
  | .nil, .nil => true
  | .cons n1 l1, .cons n2 l2 => similarN n1 n2 && similarL l1 l2
  | _, _ => false
end

/-- Word sequence a single node contributes to the cleaned text (after
script/style extraction). -/
def stripTokensN (n : Node) : List (List Char) :=
  match extractScriptStyleN n with
  | none => []
  | some m => (textStringsN m).flatMap (fun s => wsTokens s.data)

/-- Word sequence a document contributes to the cleaned text (after
script/style extraction). -/
def stripTokensL (l : NodeList) : List (List Char) :=
  (textStringsL (extractScriptStyleL l)).flatMap (fun s => wsTokens s.data)

/-! ## `Crawler.crawl_website` (`backend/utils/crawler.py`, lines 159–255)

The browser/network is the loop's only external dependency; it is modelled as
an environment: `fetch u` describes what happens when the loop opens a page
for `u`, navigates, optionally scrolls, reads `page.content()` (a document
tree, the BeautifulSoup boundary) and queries the `a[href]` anchors.

Failure points of the `try` block are modelled where they change the
observable state: `navFail` is an exception before the content is stored
(`goto`/scrolling/`page.content`), `linksFail doc` an exception at
`query_selector_all` after the result was stored, and `ok doc hrefs closeOk`
the successful path (with `closeOk = false` when `page.close()` itself
raises).  Each `hrefs` entry is the `get_attribute('href')` result, `none`
when the attribute is missing or the per-link lookup raises (both are
skipped by the source).  `new_page` is assumed to succeed once the
capability is initialized, which is its only failure mode in the source.

The `while` loop is modelled with an explicit fuel argument; running out of
fuel returns the state reached so far, and every property proved below holds
for all fuel values, so in particular for any fuel large enough for the loop
to finish (`crawl_loop_stabilizes` shows such a fuel always exists, i.e. the
Python loop terminates).  Resource handling is tracked in an event trace:
`.opened u` when the page for `u` is created, `.closed u` when
`page.close()` completes, `.closeFailed u` when it raises, `.stored u` when
`results[u]` is assigned, `.fetchFailed u` for the `navFail` exception and
`.skipped u` for an already-visited dequeue. -/

/-- What the page-loading capability does for one URL. -/
inductive FetchOutcome where
  | navFail
  | linksFail (doc : NodeList)
  | ok (doc : NodeList) (hrefs : List (Option String)) (closeOk : Bool)

/-- The external capability: whether `init()` succeeds, and the per-URL
page behaviour. -/
structure CrawlEnv where
  initOk : Bool
  fetch : String → FetchOutcome

/-- Observable resource/progress events of one crawl. -/
inductive CEvent where
  | skipped (u : String)
  | opened (u : String)
  | fetchFailed (u : String)
  | stored (u : String)
  | closed (u : String)
  | closeFailed (u : String)
deriving DecidableEq

/-- The loop state: frontier, visited set (insertion list), the results dict
(insertion-ordered association list) and the event trace. -/
structure CrawlState where
  urls_to_visit : List String
  visited_urls : List String
  results : List (String × String)
  events : List CEvent
deriving DecidableEq

/-- Keys of the results dict. -/
def resultKeys (rs : List (String × String)) : List String := rs.map Prod.fst

/-- The inner `for link_element in link_elements` loop: each href (when
present and non-empty — `if href:`) is normalized against the current page's
URL and appended to the frontier when `should_crawl_url` accepts it and it is
in neither `visited_urls` nor the current frontier. -/
def collectLinks (base_domain page_url : String) (visited : List String) :
    List (Option String) → List String → List String
  | [], frontier => frontier
  | none :: hs, frontier => collectLinks base_domain page_url visited hs frontier
  | some href :: hs, frontier =>
    if href = "" then collectLinks base_domain page_url visited hs frontier
    else
      let link_url := normalize_url href page_url
      if should_crawl_url link_url base_domain ∧ link_url ∉ visited ∧ link_url ∉ frontier
      then collectLinks base_domain page_url visited hs (frontier ++ [link_url])
      else collectLinks base_domain page_url visited hs frontier

/-- The `while urls_to_visit and len(results) < max_pages` loop of
`crawl_website`. -/
def crawl_loop (env : CrawlEnv) (url : String) (base_domain : String)
    (max_pages : Nat) : Nat → CrawlState → CrawlState
  | 0, st => st
  | fuel + 1, st =>
    match st.urls_to_visit with
    | [] => st
    | current_url :: rest =>
      if st.results.length < max_pages then
        let normalized_url := normalize_url current_url url
        if normalized_url ∈ st.visited_urls then
          crawl_loop env url base_domain max_pages fuel
            { st with urls_to_visit := rest,
                      events := st.events ++ [.skipped normalized_url] }
        else
          let visited2 := st.visited_urls ++ [normalized_url]
          match env.fetch normalized_url with
          | .navFail =>
            crawl_loop env url base_domain max_pages fuel
              ⟨rest, visited2, st.results,
               st.events ++ [.opened normalized_url, .fetchFailed normalized_url]⟩
          | .linksFail doc =>
            crawl_loop env url base_domain max_pages fuel
              ⟨rest, visited2,
               st.results ++ [(normalized_url, (clean_and_hash doc).1)],
               st.events ++ [.opened normalized_url, .stored normalized_url]⟩
          | .ok doc hrefs closeOk =>
            crawl_loop env url base_domain max_pages fuel
              ⟨collectLinks base_domain normalized_url visited2 hrefs rest,
               visited2,
               st.results ++ [(normalized_url, (clean_and_hash doc).1)],
               st.events ++ [.opened normalized_url, .stored normalized_url,
                 (if closeOk then .closed normalized_url
                  else .closeFailed normalized_url)]⟩
      else st

/-- The crawl-level error taxonomy: only a capability-initialization failure
escapes `crawl_website`. -/
inductive CrawlError where
  | capabilityInit
deriving DecidableEq

/-- `Crawler.crawl_website(url, ..., max_pages, visited_urls)`: seed the
frontier with the start URL, compute `base_domain = urlparse(url).netloc`,
initialize the capability (fatal on failure), then run the loop. -/
def crawl_website (env : CrawlEnv) (url : String) (max_pages : Nat)
    (visited_urls : List String) (fuel : Nat) : Except CrawlError CrawlState :=
  if env.initOk then
    .ok (crawl_loop env url (urlparseNetloc url) max_pages fuel
          ⟨[url], visited_urls, [], []⟩)
  else .error .capabilityInit

/-! ### Concrete environments used by witnesses and counterexamples -/

/-- An environment whose every page navigation raises. -/
def navFailEnv : CrawlEnv := ⟨true, fun _ => .navFail⟩

/-- An environment whose root page links to `/x`. -/
def env10 : CrawlEnv :=
  ⟨true, fun u =>
    if u = "http://h/" then .ok (.cons (.text "root") .nil) [some "/x"] true
    else .ok (.cons (.text "page") .nil) [] true⟩

/-- An environment where the root succeeds and links to a page whose fetch
raises and one that succeeds. -/
def mixedEnv : CrawlEnv :=
  ⟨true, fun u =>
    if u = "http://h/" then .ok (.cons (.text "root") .nil) [some "/bad", some "/good"] true
    else if u = "http://h/bad" then .navFail
    else .ok (.cons (.text "page") .nil) [] true⟩

/-- An environment whose root page carries a link with an explicit `https`
scheme but no authority (no `"//"`), as in `href="https:/evil"`. -/
def crossSchemeEnv : CrawlEnv :=
  ⟨true, fun u =>
    if u = "http://h/" then .ok (.cons (.text "root") .nil) [some "https:/evil"] true
    else .ok (.cons (.text "page") .nil) [] true⟩

/-! ## C4: termination and convergence of the scroll loop -/

theorem infinite_scroll_go_le (h : Nat → Int) :
    ∀ fuel last i, infinite_scroll_go h last i fuel ≤ fuel := by
  intro fuel
  induction fuel with
  | zero => intro last i; simp [infinite_scroll_go]
  | succ f ih =>
    intro last i
    simp only [infinite_scroll_go]
    split
    · omega
    · have := ih (h i) (i + 1)
      omega

theorem infinite_scroll_go_first_stop (h : Nat → Int) :
    ∀ fuel i k, i ≤ k → k - i < fuel → h k = h (k - 1) →
      (∀ j, i ≤ j → j < k → h j ≠ h (j - 1)) →
      infinite_scroll_go h (h (i - 1)) i fuel = k - i + 1 := by
  intro fuel
  induction fuel with
  | zero => intro i k hik hlt; omega
  | succ f ih =>
    intro i k hik hlt heq hne
    simp only [infinite_scroll_go]
    rcases Nat.eq_or_lt_of_le hik with hik2 | hik2
    · subst hik2
      simp [heq]
    · have hne_i : h i ≠ h (i - 1) := hne i le_rfl hik2
      rw [if_neg (by exact fun hcontra => hne_i hcontra)]
      have harg : h i = h ((i + 1) - 1) := by simp
      have := ih (i + 1) k hik2 (by omega) heq
        (fun j hj1 hj2 => hne j (by omega) hj2)
      rw [harg, this]
      omega

/-- C4: for every sequence of page-height reports, `infinite_scroll` performs
at most `max_scrolls` scroll steps (so it always returns, even on a page
whose height grows forever), and it stops at the first scroll after which
the measured height equals the immediately preceding measurement. -/
theorem c4_scroll_loop_termination (h : Nat → Int) (max_scrolls : Nat) :
    infinite_scroll_steps h max_scrolls ≤ max_scrolls ∧
    (∀ k, 1 ≤ k → k ≤ max_scrolls → h k = h (k - 1) →
      (∀ j, 1 ≤ j → j < k → h j ≠ h (j - 1)) →
      infinite_scroll_steps h max_scrolls = k) := by
  constructor
  · exact infinite_scroll_go_le h max_scrolls (h 0) 1
  · intro k hk1 hkmax heq hne
    have h0 : h 0 = h (1 - 1) := by norm_num
    have := infinite_scroll_go_first_stop h max_scrolls 1 k hk1 (by omega) heq
      (fun j hj1 hj2 => hne j hj1 hj2)
    unfold infinite_scroll_steps
    rw [h0, this]
    omega

/-- Witness for C4: with heights 0, 1, 2, 2, 2, … the loop scrolls exactly
three times under the default cap of 50, and three is within the cap. -/
theorem c4_scroll_loop_termination_witness :
    infinite_scroll_steps (fun n => if n < 2 then (n : Int) else 2) 50 ≤ 50 ∧
    infinite_scroll_steps (fun n => if n < 2 then (n : Int) else 2) 50 = 3 := by
  refine ⟨(c4_scroll_loop_termination (fun n => if n < 2 then (n : Int) else 2) 50).1, ?_⟩
  refine (c4_scroll_loop_termination (fun n => if n < 2 then (n : Int) else 2) 50).2 3
    (by decide) (by decide) (by decide) ?_
  intro j hj1 hj2
  interval_cases j <;> decide

/-! ## C1: the page budget is respected -/

theorem crawl_loop_results_le (env : CrawlEnv) (url base_domain : String)
    (max_pages : Nat) :
    ∀ fuel st, st.results.length ≤ max_pages →
      (crawl_loop env url base_domain max_pages fuel st).results.length ≤ max_pages := by
  intro fuel
  induction fuel with
  | zero => intro st h; exact h
  | succ f ih =>
    intro st h
    simp only [crawl_loop]
    split
    · exact h
    · split
      · rename_i hlt
        split
        · exact ih _ (by simpa using h)
        · split
          · exact ih _ (by simpa using h)
          · refine ih _ ?_
            simp only [List.length_append, List.length_cons, List.length_nil]
            omega
          · refine ih _ ?_
            simp only [List.length_append, List.length_cons, List.length_nil]
            omega
      · exact h

/-- C1: for every environment, start URL, caller-seeded visited set and fuel,
a successful `crawl_website` returns at most `max_pages` results, and
`max_pages = 0` yields an empty result map. -/
theorem c1_budget_respected (env : CrawlEnv) (url : String) (max_pages : Nat)
    (visited0 : List String) (fuel : Nat) (st : CrawlState)
    (hrun : crawl_website env url max_pages visited0 fuel = .ok st) :
    st.results.length ≤ max_pages ∧ (max_pages = 0 → st.results = []) := by
  unfold crawl_website at hrun
  split at hrun
  · have hst : st = crawl_loop env url (urlparseNetloc url) max_pages fuel
        ⟨[url], visited0, [], []⟩ := by
      cases hrun; rfl
    subst hst
    constructor
    · exact crawl_loop_results_le env url (urlparseNetloc url) max_pages fuel _ (by simp)
    · intro hzero
      subst hzero
      have hle := crawl_loop_results_le env url (urlparseNetloc url) 0 fuel
        ⟨[url], visited0, [], []⟩ (by simp)
      exact List.length_eq_zero.mp (Nat.le_zero.mp hle)
  · cases hrun

/-! ## C2: diff/hash consistency of `detect_changes` -/

theorem pyJoin_ne_empty (sep x : String) (xs : List String) (hx : 0 < x.length) :
    pyJoin sep (x :: xs) ≠ "" := by
  intro hcon
  have hlen : (pyJoin sep (x :: xs)).length = 0 := by rw [hcon]; rfl
  cases xs with
  | nil => simp only [pyJoin] at hlen; omega
  | cons y ys =>
    simp only [pyJoin, String.length_append] at hlen
    omega

theorem diff_text_empty_iff (a b : String) :
    diff_text a b = "" ↔ splitlines a = splitlines b := by
  unfold diff_text unified_diff
  split
  · rename_i heq
    simpa [pyJoin] using heq
  · rename_i hne
    constructor
    · intro hcon
      exact absurd hcon (pyJoin_ne_empty "\n" "--- old" _ (by decide))
    · intro h
      exact absurd h hne

/-- C2 as stated is false on the code: for previous text `"a\n"` and current
text `"a"` the SHA-256 hashes differ, so `changed = true`, yet the unified
diff is empty because both texts split into the same line list `["a"]`
(Python `splitlines` drops a trailing line terminator). -/
theorem c2_counterexample :
    (detect_changes "a\n" "a").changed = true ∧ (detect_changes "a\n" "a").diff = "" := by
  exact ⟨by decide, rfl⟩

/-- C2 amended: `changed` equals (hash of previous text ≠ hash of current
text); `diff` is the empty string exactly when the two texts split into
equal line sequences; in particular, equal texts give `changed = false` and
an empty diff.  (The original's "diff non-empty whenever changed" fails for
texts that differ only in a trailing newline; its "diff empty whenever
changed is false" is the line-sequence characterization up to SHA-256
collision-freeness, which is not a provable arithmetic fact.) -/
theorem c2_diff_hash_consistency (prev curr : String) :
    ((detect_changes prev curr).changed = true ↔
      hash_content prev ≠ hash_content curr) ∧
    ((detect_changes prev curr).diff = "" ↔ splitlines prev = splitlines curr) ∧
    (prev = curr →
      (detect_changes prev curr).changed = false ∧
      (detect_changes prev curr).diff = "") := by
  refine ⟨?_, diff_text_empty_iff prev curr, ?_⟩
  · simp [detect_changes, bne_iff_ne]
  · rintro rfl
    exact ⟨by simp [detect_changes], (diff_text_empty_iff _ _).mpr rfl⟩

/-- Witness for C2 (amended): on the pair ("x", "x") the record reports no
change and an empty diff. -/
theorem c2_diff_hash_consistency_witness :
    (detect_changes "x" "x").changed = false ∧ (detect_changes "x" "x").diff = "" :=
  (c2_diff_hash_consistency "x" "x").2.2 rfl

/-- Witness for C1: a concrete zero-budget crawl returns no results. -/
theorem c1_budget_respected_witness :
    (crawl_loop ⟨true, fun _ => .navFail⟩ "http://h/" (urlparseNetloc "http://h/") 0 5
        ⟨["http://h/"], [], [], []⟩).results.length ≤ 0 ∧
    (0 = 0 → (crawl_loop ⟨true, fun _ => .navFail⟩ "http://h/" (urlparseNetloc "http://h/") 0 5
        ⟨["http://h/"], [], [], []⟩).results = []) :=
  c1_budget_respected ⟨true, fun _ => .navFail⟩ "http://h/" 0 [] 5 _ rfl

/-! ## C9: per-page resource handling on failure paths -/

/-- C9 is violated by the code: in a crawl whose first page's navigation
raises, the `except` branch merely logs and continues, and `page.close()`
sits only at the end of the `try` block, so the page opened for that URL is
never closed during the loop — the trace ends with an `.opened` event and no
matching `.closed` or `.closeFailed`.  The spec (§5) requires release on
both success and failure paths, and the code's own comment ("Close the page
to free memory") shows the intent. -/
theorem c9_page_leak_on_failure :
    ∃ st, crawl_website navFailEnv "http://h/" 10 [] 5 = .ok st ∧
      CEvent.opened "http://h/" ∈ st.events ∧
      CEvent.closed "http://h/" ∉ st.events ∧
      CEvent.closeFailed "http://h/" ∉ st.events :=
  ⟨⟨[], ["http://h/"], [], [.opened "http://h/", .fetchFailed "http://h/"]⟩,
   rfl, by decide, by decide, by decide⟩

/-! ## Loop invariants shared by C5 and C10 -/

theorem crawl_loop_visited_mono (env : CrawlEnv) (url bd : String) (mp : Nat) :
    ∀ fuel st x, x ∈ st.visited_urls →
      x ∈ (crawl_loop env url bd mp fuel st).visited_urls := by
  intro fuel
  induction fuel with
  | zero => intro st x hx; exact hx
  | succ f ih =>
    intro st x hx
    simp only [crawl_loop]
    split
    · exact hx
    · split
      · split
        · exact ih _ x hx
        · split
          · exact ih _ x (by simp [hx])
          · exact ih _ x (by simp [hx])
          · exact ih _ x (by simp [hx])
      · exact hx

theorem resultKeys_append_single (rs : List (String × String)) (p : String × String) :
    resultKeys (rs ++ [p]) = resultKeys rs ++ [p.1] := by
  simp [resultKeys]

theorem mem_keys_append_single {rs : List (String × String)} {p : String × String}
    {k : String} (hk : k ∈ resultKeys (rs ++ [p])) : k ∈ resultKeys rs ∨ k = p.1 := by
  rw [resultKeys_append_single] at hk
  rcases List.mem_append.mp hk with hk | hk
  · exact Or.inl hk
  · exact Or.inr (List.mem_singleton.mp hk)

theorem crawl_loop_keys_sub_visited (env : CrawlEnv) (url bd : String) (mp : Nat) :
    ∀ fuel st, (∀ k ∈ resultKeys st.results, k ∈ st.visited_urls) →
      ∀ k ∈ resultKeys (crawl_loop env url bd mp fuel st).results,
        k ∈ (crawl_loop env url bd mp fuel st).visited_urls := by
  intro fuel
  induction fuel with
  | zero => intro st h; exact h
  | succ f ih =>
    intro st h
    simp only [crawl_loop]
    split
    · exact h
    · split
      · split
        · exact ih _ (by simpa using h)
        · split
          · exact ih _ (fun k hk => List.mem_append_left _ (h k hk))
          · refine ih _ ?_
            intro k hk
            rcases mem_keys_append_single hk with hk | hk
            · exact List.mem_append_left _ (h k hk)
            · exact List.mem_append_right _ (by simp [hk])
          · refine ih _ ?_
            intro k hk
            rcases mem_keys_append_single hk with hk | hk
            · exact List.mem_append_left _ (h k hk)
            · exact List.mem_append_right _ (by simp [hk])
      · exact h

theorem crawl_loop_keys_not_inV (env : CrawlEnv) (url bd : String) (mp : Nat)
    (V : List String) :
    ∀ fuel st,
      (∀ x ∈ V, x ∈ st.visited_urls) →
      (∀ k ∈ resultKeys st.results, k ∉ V) →
      ∀ k ∈ resultKeys (crawl_loop env url bd mp fuel st).results, k ∉ V := by
  intro fuel
  induction fuel with
  | zero => intro st _ h; exact h
  | succ f ih =>
    intro st hV h
    simp only [crawl_loop]
    split
    · exact h
    · split
      · split
        · exact ih _ hV h
        · rename_i hnv
          split
          · exact ih _ (fun x hx => List.mem_append_left _ (hV x hx)) h
          · refine ih _ (fun x hx => List.mem_append_left _ (hV x hx)) ?_
            intro k hk
            rcases mem_keys_append_single hk with hk | hk
            · exact h k hk
            · intro hkV
              rw [hk] at hkV
              exact hnv (hV _ hkV)
          · refine ih _ (fun x hx => List.mem_append_left _ (hV x hx)) ?_
            intro k hk
            rcases mem_keys_append_single hk with hk | hk
            · exact h k hk
            · intro hkV
              rw [hk] at hkV
              exact hnv (hV _ hkV)
      · exact h

theorem crawl_loop_opened_not_inV (env : CrawlEnv) (url bd : String) (mp : Nat)
    (V : List String) :
    ∀ fuel st,
      (∀ x ∈ V, x ∈ st.visited_urls) →
      (∀ u ∈ V, CEvent.opened u ∉ st.events) →
      ∀ u ∈ V, CEvent.opened u ∉ (crawl_loop env url bd mp fuel st).events := by
  intro fuel
  induction fuel with
  | zero => intro st _ h; exact h
  | succ f ih =>
    intro st hV h
    simp only [crawl_loop]
    split
    · exact h
    · split
      · split
        · refine ih _ hV ?_
          intro u hu
          simp [List.mem_append, h u hu]
        · rename_i cur rest hfr hlt hnv
          have hne : ∀ u ∈ V, u ≠ normalize_url cur url := by
            intro u hu heq
            exact hnv (heq ▸ hV u hu)
          have hifne : ∀ u b, CEvent.opened u ≠
              (if b = true then CEvent.closed (normalize_url cur url)
               else CEvent.closeFailed (normalize_url cur url)) := by
            intro u b
            cases b <;> simp
          split
          · refine ih _ (fun x hx => List.mem_append_left _ (hV x hx)) ?_
            intro u hu
            simp [List.mem_append, h u hu, hne u hu]
          · refine ih _ (fun x hx => List.mem_append_left _ (hV x hx)) ?_
            intro u hu
            simp [List.mem_append, h u hu, hne u hu]
          · refine ih _ (fun x hx => List.mem_append_left _ (hV x hx)) ?_
            intro u hu
            simp [List.mem_append, h u hu, hne u hu, hifne u]
      · exact h

theorem crawl_loop_opened_sub_visited (env : CrawlEnv) (url bd : String) (mp : Nat) :
    ∀ fuel st,
      (∀ u, CEvent.opened u ∈ st.events → u ∈ st.visited_urls) →
      ∀ u, CEvent.opened u ∈ (crawl_loop env url bd mp fuel st).events →
        u ∈ (crawl_loop env url bd mp fuel st).visited_urls := by
  intro fuel
  induction fuel with
  | zero => intro st h; exact h
  | succ f ih =>
    intro st h
    simp only [crawl_loop]
    split
    · exact h
    · split
      · split
        · refine ih _ ?_
          intro u hu
          rcases List.mem_append.mp hu with hu | hu
          · exact h u hu
          · simp at hu
        · rename_i cur rest hfr hlt hnv
          have hifne : ∀ u b, CEvent.opened u ≠
              (if b = true then CEvent.closed (normalize_url cur url)
               else CEvent.closeFailed (normalize_url cur url)) := by
            intro u b
            cases b <;> simp
          split
          · refine ih _ ?_
            intro u hu
            rcases List.mem_append.mp hu with hu | hu
            · exact List.mem_append_left _ (h u hu)
            · simp only [List.mem_cons, List.mem_singleton, List.not_mem_nil,
                or_false] at hu
              rcases hu with hu | hu
              · rw [CEvent.opened.injEq] at hu
                exact List.mem_append_right _ (by simp [hu])
              · cases hu
          · refine ih _ ?_
            intro u hu
            rcases List.mem_append.mp hu with hu | hu
            · exact List.mem_append_left _ (h u hu)
            · simp only [List.mem_cons, List.mem_singleton, List.not_mem_nil,
                or_false] at hu
              rcases hu with hu | hu
              · rw [CEvent.opened.injEq] at hu
                exact List.mem_append_right _ (by simp [hu])
              · cases hu
          · refine ih _ ?_
            intro u hu
            rcases List.mem_append.mp hu with hu | hu
            · exact List.mem_append_left _ (h u hu)
            · simp only [List.mem_cons, List.not_mem_nil, or_false] at hu
              rcases hu with hu | hu | hu
              · rw [CEvent.opened.injEq] at hu
                exact List.mem_append_right _ (by simp [hu])
              · cases hu
              · exact absurd hu (hifne u _)
      · exact h

theorem crawl_loop_stored_iff_keys (env : CrawlEnv) (url bd : String) (mp : Nat) :
    ∀ fuel st,
      (∀ u, CEvent.stored u ∈ st.events ↔ u ∈ resultKeys st.results) →
      ∀ u, CEvent.stored u ∈ (crawl_loop env url bd mp fuel st).events ↔
        u ∈ resultKeys (crawl_loop env url bd mp fuel st).results := by
  intro fuel
  induction fuel with
  | zero => intro st h; exact h
  | succ f ih =>
    intro st h
    simp only [crawl_loop]
    split
    · exact h
    · split
      · split
        · refine ih _ ?_
          intro u
          simp [List.mem_append, h u]
        · rename_i cur rest hfr hlt hnv
          have hifne : ∀ u b, CEvent.stored u ≠
              (if b = true then CEvent.closed (normalize_url cur url)
               else CEvent.closeFailed (normalize_url cur url)) := by
            intro u b
            cases b <;> simp
          split
          · refine ih _ ?_
            intro u
            simp [List.mem_append, h u]
          · refine ih _ ?_
            intro u
            simp [resultKeys_append_single, List.mem_append, h u, resultKeys]
          · refine ih _ ?_
            intro u
            simp [resultKeys_append_single, List.mem_append, h u, resultKeys,
              hifne u]
      · exact h

theorem crawl_loop_fetchFailed_inv (env : CrawlEnv) (url bd : String) (mp : Nat) :
    ∀ fuel st,
      (∀ k ∈ resultKeys st.results, k ∈ st.visited_urls) →
      (∀ u, CEvent.fetchFailed u ∈ st.events →
        u ∈ st.visited_urls ∧ u ∉ resultKeys st.results) →
      ∀ u, CEvent.fetchFailed u ∈ (crawl_loop env url bd mp fuel st).events →
        u ∉ resultKeys (crawl_loop env url bd mp fuel st).results := by
  intro fuel
  induction fuel with
  | zero => intro st _ h u hu; exact (h u hu).2
  | succ f ih =>
    intro st hkv h
    simp only [crawl_loop]
    split
    · exact fun u hu => (h u hu).2
    · split
      · split
        · refine ih _ (by simpa using hkv) ?_
          intro u hu
          rcases List.mem_append.mp hu with hu | hu
          · exact h u hu
          · simp at hu
        · rename_i cur rest hfr hlt hnv
          have hifne : ∀ u b, CEvent.fetchFailed u ≠
              (if b = true then CEvent.closed (normalize_url cur url)
               else CEvent.closeFailed (normalize_url cur url)) := by
            intro u b
            cases b <;> simp
          split
          · refine ih _ (fun k hk => List.mem_append_left _ (hkv k hk)) ?_
            intro u hu
            rcases List.mem_append.mp hu with hu | hu
            · exact ⟨List.mem_append_left _ (h u hu).1, (h u hu).2⟩
            · simp only [List.mem_cons, List.mem_singleton, List.not_mem_nil,
                or_false] at hu
              rcases hu with hu | hu
              · cases hu
              · rw [CEvent.fetchFailed.injEq] at hu
                subst hu
                refine ⟨List.mem_append_right _ (by simp), ?_⟩
                exact fun hk => hnv (hkv _ hk)
          · refine ih _ ?_ ?_
            · intro k hk
              rcases mem_keys_append_single hk with hk | hk
              · exact List.mem_append_left _ (hkv k hk)
              · exact List.mem_append_right _ (by simp [hk])
            · intro u hu
              rcases List.mem_append.mp hu with hu | hu
              · refine ⟨List.mem_append_left _ (h u hu).1, ?_⟩
                intro hk
                rcases mem_keys_append_single hk with hk | hk
                · exact (h u hu).2 hk
                · have hv := (h u hu).1
                  rw [hk] at hv
                  exact hnv hv
              · simp at hu
          · refine ih _ ?_ ?_
            · intro k hk
              rcases mem_keys_append_single hk with hk | hk
              · exact List.mem_append_left _ (hkv k hk)
              · exact List.mem_append_right _ (by simp [hk])
            · intro u hu
              rcases List.mem_append.mp hu with hu | hu
              · refine ⟨List.mem_append_left _ (h u hu).1, ?_⟩
                intro hk
                rcases mem_keys_append_single hk with hk | hk
                · exact (h u hu).2 hk
                · have hv := (h u hu).1
                  rw [hk] at hv
                  exact hnv hv
              · simp only [List.mem_cons, List.not_mem_nil, or_false] at hu
                rcases hu with hu | hu | hu
                · cases hu
                · cases hu
                · exact absurd hu (hifne u _)
      · exact fun u hu => (h u hu).2

/-! ## C10: the caller-supplied visited set -/

/-- C10: with a caller-supplied `visited_urls` set, the crawl only grows it
(Python mutates the very set object in place; the embedding returns the
final set, which is what the caller observes): every member of the supplied
set is still in the final set, every result key is a fresh URL that was not
in the supplied set and is in the final set, no URL of the supplied set ever
has a page opened for it (it is never fetched, hence never a key), and every
URL a page was opened for has been added to the set. -/
theorem c10_visited_set_frame (env : CrawlEnv) (url : String) (max_pages : Nat)
    (visited0 : List String) (fuel : Nat) (st : CrawlState)
    (hrun : crawl_website env url max_pages visited0 fuel = .ok st) :
    (∀ x ∈ visited0, x ∈ st.visited_urls) ∧
    (∀ k ∈ resultKeys st.results, k ∉ visited0 ∧ k ∈ st.visited_urls) ∧
    (∀ u ∈ visited0, CEvent.opened u ∉ st.events) ∧
    (∀ u, CEvent.opened u ∈ st.events → u ∈ st.visited_urls) := by
  unfold crawl_website at hrun
  split at hrun
  · have hst : st = crawl_loop env url (urlparseNetloc url) max_pages fuel
        ⟨[url], visited0, [], []⟩ := by
      cases hrun; rfl
    subst hst
    refine ⟨?_, ?_, ?_, ?_⟩
    · intro x hx
      exact crawl_loop_visited_mono env url _ max_pages fuel _ x hx
    · intro k hk
      constructor
      · exact crawl_loop_keys_not_inV env url _ max_pages visited0 fuel _
          (fun x hx => hx) (by simp [resultKeys]) k hk
      · exact crawl_loop_keys_sub_visited env url _ max_pages fuel _
          (by simp [resultKeys]) k hk
    · intro u hu
      exact crawl_loop_opened_not_inV env url _ max_pages visited0 fuel _
        (fun x hx => hx) (by simp) u hu
    · intro u hu
      exact crawl_loop_opened_sub_visited env url _ max_pages fuel _ (by simp) u hu
  · cases hrun

/-- Witness for C10: seeding the visited set with `"http://h/x"` makes the
crawl skip that page even though the root links to it, while the set grows
by the root URL. -/
theorem c10_visited_set_frame_witness :
    ∃ st, crawl_website env10 "http://h/" 10 ["http://h/x"] 5 = .ok st ∧
      "http://h/x" ∈ st.visited_urls ∧
      ("http://h/" ∉ (["http://h/x"] : List String) ∧ "http://h/" ∈ st.visited_urls) ∧
      CEvent.opened "http://h/x" ∉ st.events ∧
      "http://h/" ∈ st.visited_urls := by
  have h := c10_visited_set_frame env10 "http://h/" 10 ["http://h/x"] 5 _ rfl
  exact ⟨_, rfl, h.1 _ (by decide), h.2.1 "http://h/" (by decide),
    h.2.2.1 _ (by decide), h.2.2.2 "http://h/" (by decide)⟩

/-! ## C5: per-page failures are contained, partial results preserved -/

/-- C5: `crawl_website` fails only when the capability cannot initialize
(and then with exactly that error); on every successful run, a URL whose
fetch raised is absent from the result map, and the result map holds exactly
the pages whose content was successfully extracted and stored. -/
theorem c5_error_containment (env : CrawlEnv) (url : String) (max_pages : Nat)
    (visited0 : List String) (fuel : Nat) :
    (∀ e, crawl_website env url max_pages visited0 fuel = .error e ↔
        (env.initOk = false ∧ e = .capabilityInit)) ∧
    (∀ st, crawl_website env url max_pages visited0 fuel = .ok st →
      (∀ u, CEvent.fetchFailed u ∈ st.events → u ∉ resultKeys st.results) ∧
      (∀ u, CEvent.stored u ∈ st.events ↔ u ∈ resultKeys st.results)) := by
  constructor
  · intro e
    unfold crawl_website
    split
    · rename_i hinit
      constructor
      · intro hcon; cases hcon
      · rintro ⟨hfalse, _⟩
        rw [hinit] at hfalse
        cases hfalse
    · rename_i hinit
      constructor
      · intro heq
        cases heq
        exact ⟨by simpa using hinit, rfl⟩
      · rintro ⟨_, rfl⟩; rfl
  · intro st hrun
    unfold crawl_website at hrun
    split at hrun
    · have hst : st = crawl_loop env url (urlparseNetloc url) max_pages fuel
          ⟨[url], visited0, [], []⟩ := by
        cases hrun; rfl
      subst hst
      constructor
      · exact crawl_loop_fetchFailed_inv env url _ max_pages fuel _
          (by simp [resultKeys]) (by simp)
      · exact crawl_loop_stored_iff_keys env url _ max_pages fuel _
          (by simp [resultKeys])
    · cases hrun

/-- Witness for C5: a failed initialization aborts with `capabilityInit`;
in a crawl where `/bad` fails and `/`, `/good` succeed, the failed page is
absent and both successes are present. -/
theorem c5_error_containment_witness :
    (crawl_website ⟨false, fun _ => .navFail⟩ "http://h/" 10 [] 5 =
      .error .capabilityInit) ∧
    (∃ st, crawl_website mixedEnv "http://h/" 10 [] 9 = .ok st ∧
      "http://h/bad" ∉ resultKeys st.results ∧
      "http://h/good" ∈ resultKeys st.results ∧
      "http://h/" ∈ resultKeys st.results) := by
  constructor
  · exact ((c5_error_containment ⟨false, fun _ => .navFail⟩ "http://h/" 10 [] 5).1
      .capabilityInit).mpr ⟨rfl, rfl⟩
  · refine ⟨_, rfl, ?_, ?_, ?_⟩
    · exact ((c5_error_containment mixedEnv "http://h/" 10 [] 9).2 _ rfl).1
        "http://h/bad" (by decide)
    · exact (((c5_error_containment mixedEnv "http://h/" 10 [] 9).2 _ rfl).2
        "http://h/good").mp (by decide)
    · exact (((c5_error_containment mixedEnv "http://h/" 10 [] 9).2 _ rfl).2
        "http://h/").mp (by decide)

/-! ## C8: the trailing-slash policy of `normalize_url` -/

theorem head?_dropWhile_not (p : Char → Bool) :
    ∀ (l : List Char) (c : Char), (l.dropWhile p).head? = some c → p c = false := by
  intro l
  induction l with
  | nil => intro c h; simp [List.dropWhile] at h
  | cons x xs ih =>
    intro c h
    rw [List.dropWhile_cons] at h
    split at h
    · exact ih c h
    · rename_i hpx
      simp only [List.head?_cons, Option.some.injEq] at h
      subst h
      exact Bool.not_eq_true _ ▸ (by simpa using hpx)

theorem rstripSlashes_getLast? (cs : List Char) :
    (rstripSlashes cs).getLast? ≠ some '/' := by
  intro hcon
  unfold rstripSlashes at hcon
  rw [List.getLast?_reverse] at hcon
  have := head?_dropWhile_not (· = '/') cs.reverse '/' hcon
  simp at this

/-- C8 as stated is false on the code: against base `"http://h/"`, the URL
`"http://h/a//"` is its own fragment-free absolute form, and `normalize_url`
strips BOTH trailing slashes (Python `rstrip('/')` removes every trailing
occurrence), returning `"http://h/a"` where stripping exactly one slash
would return `"http://h/a/"` (and the result is not the scope root). -/
theorem c8_counterexample :
    urldefragFst (urljoin "http://h/" "http://h/a//") = "http://h/a//" ∧
    normalize_url "http://h/a//" "http://h/" = "http://h/a" ∧
    normalize_url "http://h/a//" "http://h/" ≠ "http://h/a/" := by
  exact ⟨rfl, rfl, by decide⟩

/-- C8 amended: `normalize_url` strips ALL trailing slashes from the
fragment-free absolute URL, except when that URL equals
`base_url.rstrip('/') + '/'` (the base with a single trailing slash), which
is kept unchanged; consequently the result ends in `'/'` only in that
preserved case. -/
theorem c8_trailing_slash_policy (u b : String) :
    (urldefragFst (urljoin b u) = ⟨rstripSlashes b.data ++ ['/']⟩ →
      normalize_url u b = urldefragFst (urljoin b u)) ∧
    ((urldefragFst (urljoin b u)).data.getLast? = some '/' →
      urldefragFst (urljoin b u) ≠ ⟨rstripSlashes b.data ++ ['/']⟩ →
      normalize_url u b = ⟨rstripSlashes (urldefragFst (urljoin b u)).data⟩) ∧
    ((normalize_url u b).data.getLast? = some '/' →
      normalize_url u b = ⟨rstripSlashes b.data ++ ['/']⟩) := by
  have hdata : (urldefragFst (urljoin b u)).data = (urldefragC (urljoinC b.data u.data)).1 := rfl
  refine ⟨?_, ?_, ?_⟩
  · intro hkeep
    simp only [normalize_url]
    rw [if_neg]
    · rfl
    · rintro ⟨-, hne⟩
      apply hne
      have := congrArg String.data hkeep
      rw [hdata] at this
      exact this
  · intro hsl hne
    have hsl2 : (urldefragC (urljoinC b.data u.data)).1.getLast? = some '/' := by
      rw [hdata] at hsl
      exact hsl
    have hne2 : (urldefragC (urljoinC b.data u.data)).1 ≠ rstripSlashes b.data ++ ['/'] := by
      intro hcon
      exact hne (congrArg String.mk hcon)
    simp only [normalize_url]
    rw [if_pos ⟨hsl2, hne2⟩, hdata]
  · intro hsl
    simp only [normalize_url] at hsl ⊢
    split at hsl
    · rename_i hcond
      exact absurd hsl (by simpa using rstripSlashes_getLast? _)
    · rename_i hcond
      rw [not_and_or] at hcond
      rcases hcond with hcond | hcond
      · exact absurd hsl (by simpa using hcond)
      · rw [if_neg]
        · rw [not_ne_iff] at hcond
          exact congrArg String.mk hcond
        · rintro ⟨-, hne⟩
          rw [not_ne_iff] at hcond
          exact hne hcond

/-- Witness for C8 (amended): the base root keeps its single trailing slash,
and a deeper URL with two trailing slashes has both stripped. -/
theorem c8_trailing_slash_policy_witness :
    normalize_url "http://h/" "http://h/" = urldefragFst (urljoin "http://h/" "http://h/") ∧
    normalize_url "http://h/a//" "http://h/" =
      ⟨rstripSlashes (urldefragFst (urljoin "http://h/" "http://h/a//")).data⟩ ∧
    normalize_url "http://h/" "http://h/" = ⟨rstripSlashes ("http://h/" : String).data ++ ['/']⟩ := by
  refine ⟨(c8_trailing_slash_policy "http://h/" "http://h/").1 (by decide),
    (c8_trailing_slash_policy "http://h/a//" "http://h/").2.1 (by decide) (by decide),
    (c8_trailing_slash_policy "http://h/" "http://h/").2.2 (by decide)⟩

/-! ## C3: extraction stability under script/style/comment/whitespace change -/

theorem wsTokensGo_ne_nil (acc : List Char) (hacc : acc ≠ []) :
    ∀ cs, wsTokensGo acc cs ≠ [] := by
  intro cs
  induction cs generalizing acc with
  | nil => simp [wsTokensGo, hacc]
  | cons c cs ih =>
    simp only [wsTokensGo]
    split
    · simp [hacc]
    · exact ih (c :: acc) (by simp)

theorem wsTokensGo_words (cs : List Char) :
    ∀ acc, (∀ a ∈ acc, pyIsSpace a = false) →
      ∀ t ∈ wsTokensGo acc cs, t ≠ [] ∧ ∀ x ∈ t, pyIsSpace x = false := by
  induction cs with
  | nil =>
    intro acc hacc t ht
    simp only [wsTokensGo] at ht
    split at ht
    · simp at ht
    · rename_i hne
      simp only [List.mem_singleton] at ht
      subst ht
      exact ⟨by simpa using hne, fun x hx => hacc x (List.mem_reverse.mp hx)⟩
  | cons c cs ih =>
    intro acc hacc t ht
    simp only [wsTokensGo] at ht
    split at ht
    · rename_i hsp
      split at ht
      · exact ih [] (by simp) t ht
      · rename_i hne
        rcases List.mem_cons.mp ht with ht | ht
        · subst ht
          exact ⟨by simpa using hne, fun x hx => hacc x (List.mem_reverse.mp hx)⟩
        · exact ih [] (by simp) t ht
    · rename_i hsp
      refine ih (c :: acc) ?_ t ht
      intro a ha
      rcases List.mem_cons.mp ha with ha | ha
      · subst ha; simpa using hsp
      · exact hacc a ha

theorem wsTokensGo_nil_all_space (cs : List Char) :
    wsTokensGo [] cs = [] → ∀ x ∈ cs, pyIsSpace x = true := by
  induction cs with
  | nil => intro _ x hx; cases hx
  | cons c cs ih =>
    intro h x hx
    simp only [wsTokensGo] at h
    split at h
    · rename_i hsp
      rcases List.mem_cons.mp hx with hx | hx
      · subst hx; exact hsp
      · exact ih h x hx
    · exact absurd h (wsTokensGo_ne_nil [c] (by simp) cs)

theorem endsInWs_cons (c : Char) (cs : List Char) (h : cs ≠ []) :
    endsInWs (c :: cs) = endsInWs cs := by
  cases cs with
  | nil => exact absurd rfl h
  | cons d ds =>
    unfold endsInWs
    rw [List.getLast?_cons_cons]

theorem joinChar_cons_ne (c : Char) (x : List Char) (ts : List (List Char))
    (h : ts ≠ []) : joinChar c (x :: ts) = x ++ c :: joinChar c ts := by
  cases ts with
  | nil => exact absurd rfl h
  | cons y ys => rfl

theorem endsInWs_of_all_space (cs : List Char) (h : cs ≠ [])
    (hall : ∀ x ∈ cs, pyIsSpace x = true) : endsInWs cs = true := by
  unfold endsInWs
  rw [List.getLast?_eq_getLast cs h]
  exact hall _ (List.getLast_mem h)

/-- The collapse machine against the word machine: in run-state the output
is the single-space join of the words, plus one trailing space when a word
was seen and the input ends in whitespace; mid-word (with the pending prefix
`acc`) the same with the pending prefix completed. -/
theorem collapse_tokens : ∀ n cs, cs.length ≤ n →
    (subWsGo true cs = joinChar ' ' (wsTokens cs) ++
      (if wsTokens cs ≠ [] ∧ endsInWs cs = true then [' '] else [])) ∧
    (∀ acc, acc ≠ [] →
      acc.reverse ++ subWsGo false cs = joinChar ' ' (wsTokensGo acc cs) ++
        (if endsInWs cs = true then [' '] else [])) := by
  intro n
  induction n with
  | zero =>
    intro cs hlen
    have hnil : cs = [] := List.length_eq_zero.mp (Nat.le_zero.mp hlen)
    subst hnil
    constructor
    · simp [subWsGo, wsTokens, wsTokensGo, joinChar, endsInWs]
    · intro acc hacc
      simp [subWsGo, wsTokensGo, joinChar, endsInWs, hacc]
  | succ m ihn =>
    intro cs hlen
    cases cs with
    | nil =>
      constructor
      · simp [subWsGo, wsTokens, wsTokensGo, joinChar, endsInWs]
      · intro acc hacc
        simp [subWsGo, wsTokensGo, joinChar, endsInWs, hacc]
    | cons c cs' =>
      have ih := ihn cs' (by simpa using Nat.succ_le_succ_iff.mp hlen)
      by_cases hsp : pyIsSpace c = true
      · constructor
        · rw [show subWsGo true (c :: cs') = subWsGo true cs' by
            simp [subWsGo, hsp]]
          rw [show wsTokens (c :: cs') = wsTokens cs' by
            simp [wsTokens, wsTokensGo, hsp]]
          rcases eq_or_ne cs' [] with h0 | h0
          · subst h0
            simp [subWsGo, wsTokens, wsTokensGo, joinChar, endsInWs]
          · rw [endsInWs_cons c cs' h0]
            exact ih.1
        · intro acc hacc
          rw [show subWsGo false (c :: cs') = ' ' :: subWsGo true cs' by
            simp [subWsGo, hsp]]
          rw [show wsTokensGo acc (c :: cs') = acc.reverse :: wsTokensGo [] cs' by
            simp [wsTokensGo, hsp, hacc]]
          rcases eq_or_ne (wsTokensGo [] cs') [] with ht | ht
          · have h1 := ih.1
            rw [wsTokens, ht] at h1
            simp only [ne_eq, not_true_eq_false, false_and, if_false,
              joinChar, List.nil_append] at h1
            have hws : endsInWs (c :: cs') = true := by
              rcases eq_or_ne cs' [] with h0 | h0
              · subst h0
                simp [endsInWs, hsp]
              · rw [endsInWs_cons c cs' h0]
                exact endsInWs_of_all_space cs' h0 (wsTokensGo_nil_all_space cs' ht)
            rw [ht, h1, hws]
            simp [joinChar]
          · rw [joinChar_cons_ne ' ' _ _ ht]
            have h1 := ih.1
            rw [wsTokens] at h1
            simp only [ne_eq, ht, not_false_eq_true, true_and] at h1
            have hcs'ne : cs' ≠ [] := by
              rintro rfl
              exact ht (by simp [wsTokensGo])
            rw [endsInWs_cons c cs' hcs'ne, h1]
            simp [List.append_assoc]
      · have hspf : pyIsSpace c = false := by simpa using hsp
        constructor
        · rw [show subWsGo true (c :: cs') = c :: subWsGo false cs' by
            simp [subWsGo, hspf]]
          rw [show wsTokens (c :: cs') = wsTokensGo [c] cs' by
            simp [wsTokens, wsTokensGo, hspf]]
          have h2 := ih.2 [c] (by simp)
          have hne := wsTokensGo_ne_nil [c] (by simp) cs'
          rcases eq_or_ne cs' [] with h0 | h0
          · subst h0
            simp [subWsGo, wsTokensGo, joinChar, endsInWs, hspf]
          · rw [endsInWs_cons c cs' h0]
            simp only [ne_eq, hne, not_false_eq_true, true_and]
            simpa using h2
        · intro acc hacc
          rw [show subWsGo false (c :: cs') = c :: subWsGo false cs' by
            simp [subWsGo, hspf]]
          rw [show wsTokensGo acc (c :: cs') = wsTokensGo (c :: acc) cs' by
            simp [wsTokensGo, hspf]]
          have h2 := ih.2 (c :: acc) (by simp)
          rcases eq_or_ne cs' [] with h0 | h0
          · subst h0
            rw [show endsInWs (c :: ([] : List Char)) = false by
              simp [endsInWs, hspf]]
            simpa [List.append_assoc, endsInWs] using h2
          · rw [endsInWs_cons c cs' h0]
            simpa [List.append_assoc] using h2

theorem dropWhile_eq_self_of_head (p : Char → Bool) (cs : List Char)
    (h : ∀ c, cs.head? = some c → p c = false) : cs.dropWhile p = cs := by
  cases cs with
  | nil => rfl
  | cons a as =>
    rw [List.dropWhile_cons, if_neg (by simp [h a rfl])]

theorem dropWhile_append_all (p : Char → Bool) (m r : List Char)
    (hm : ∀ x ∈ m, p x = true) : (m ++ r).dropWhile p = r.dropWhile p := by
  induction m with
  | nil => rfl
  | cons a as ih =>
    rw [List.cons_append, List.dropWhile_cons, if_pos (by simp [hm a (by simp)])]
    exact ih (fun x hx => hm x (by simp [hx]))

theorem joinChar_ne_nil (x : List Char) (xs : List (List Char)) (hx : x ≠ []) :
    joinChar ' ' (x :: xs) ≠ [] := by
  cases xs with
  | nil => simpa [joinChar] using hx
  | cons y ys =>
    rw [joinChar_cons_ne _ _ _ (by simp)]
    simp

theorem joinChar_head? (t : List Char) (ts : List (List Char)) (ht : t ≠ []) :
    (joinChar ' ' (t :: ts)).head? = t.head? := by
  cases ts with
  | nil => rfl
  | cons y ys =>
    rw [joinChar_cons_ne _ _ _ (by simp)]
    exact List.head?_append_of_ne_nil t ht

theorem mem_of_getLast?_eq (l : List Char) (c : Char) (h : l.getLast? = some c) :
    c ∈ l := by
  cases l with
  | nil => simp at h
  | cons a as =>
    rw [List.getLast?_eq_getLast_of_ne_nil (by simp)] at h
    simp only [Option.some.injEq] at h
    exact h ▸ List.getLast_mem (by simp)

theorem joinChar_getLast?_mem (ts : List (List Char)) (hel : ∀ t ∈ ts, t ≠ []) :
    ∀ c, (joinChar ' ' ts).getLast? = some c → ∃ t ∈ ts, t.getLast? = some c := by
  induction ts with
  | nil => intro c h; simp [joinChar] at h
  | cons x xs ih =>
    intro c h
    cases xs with
    | nil =>
      exact ⟨x, by simp, by simpa [joinChar] using h⟩
    | cons y ys =>
      rw [joinChar_cons_ne _ _ _ (by simp),
        List.getLast?_append_of_ne_nil x (by simp)] at h
      have hynil : joinChar ' ' (y :: ys) ≠ [] :=
        joinChar_ne_nil y ys (hel y (by simp))
      rw [show (' ' :: joinChar ' ' (y :: ys)).getLast? =
          (joinChar ' ' (y :: ys)).getLast? by
        cases hj : joinChar ' ' (y :: ys) with
        | nil => exact absurd hj hynil
        | cons a as => rw [List.getLast?_cons_cons]] at h
      rcases ih (fun t ht => hel t (by simp [ht])) c h with ⟨t, htm, htl⟩
      exact ⟨t, by simp [htm], htl⟩

theorem pyStrip_space_cons (c : Char) (cs : List Char) (h : pyIsSpace c = true) :
    pyStrip (c :: cs) = pyStrip cs := by
  unfold pyStrip
  rw [List.dropWhile_cons, if_pos (by simp [h])]

/-- Stripping a wrapper: a single-space join of nonempty all-non-space words
followed by an optional trailing space strips to the join itself. -/
theorem pyStrip_join_mark (ts : List (List Char)) (mark : List Char)
    (hel : ∀ t ∈ ts, t ≠ [] ∧ ∀ x ∈ t, pyIsSpace x = false)
    (hmark : mark = [] ∨ mark = [' ']) :
    pyStrip (joinChar ' ' ts ++ mark) = joinChar ' ' ts := by
  cases ts with
  | nil =>
    rcases hmark with rfl | rfl
    · rfl
    · rfl
  | cons x xs =>
    have hx := hel x (by simp)
    have hjoin_ne := joinChar_ne_nil x xs hx.1
    unfold pyStrip
    rw [show (joinChar ' ' (x :: xs) ++ mark).dropWhile pyIsSpace =
        joinChar ' ' (x :: xs) ++ mark from ?_]
    · rw [List.reverse_append]
      rw [dropWhile_append_all pyIsSpace mark.reverse _ ?_]
      · rw [dropWhile_eq_self_of_head pyIsSpace _ ?_]
        · rw [List.reverse_reverse]
        · intro c hc
          rw [List.head?_reverse] at hc
          rcases joinChar_getLast?_mem (x :: xs) (fun t ht => (hel t ht).1) c hc
            with ⟨t, htm, htl⟩
          exact (hel t htm).2 c (mem_of_getLast?_eq t c htl)
      · intro z hz
        rcases hmark with rfl | rfl
        · cases hz
        · simp only [List.reverse_singleton, List.mem_singleton] at hz
          subst hz
          rfl
    · apply dropWhile_eq_self_of_head
      intro c hc
      rw [List.head?_append_of_ne_nil _ hjoin_ne, joinChar_head? x xs hx.1] at hc
      exact hx.2 c (List.mem_of_mem_head? hc)

/-- `clean_html`'s collapse-and-strip pipeline maps a string to its words
joined by single spaces. -/
theorem clean_norm (cs : List Char) :
    pyStrip (subWsGo false cs) = joinChar ' ' (wsTokens cs) := by
  have hwords := wsTokensGo_words cs [] (by simp)
  have htrue : pyStrip (subWsGo true cs) = joinChar ' ' (wsTokens cs) := by
    have h1 := (collapse_tokens cs.length cs le_rfl).1
    rw [h1]
    split
    · rename_i hcond
      exact pyStrip_join_mark _ _ hwords (Or.inr rfl)
    · exact pyStrip_join_mark _ _ hwords (Or.inl rfl)
  cases cs with
  | nil => rfl
  | cons c cs' =>
    by_cases hsp : pyIsSpace c = true
    · rw [show subWsGo false (c :: cs') = ' ' :: subWsGo true cs' by
        simp [subWsGo, hsp]]
      rw [pyStrip_space_cons ' ' _ (by decide)]
      have h2 : pyStrip (subWsGo true cs') = joinChar ' ' (wsTokens cs') := by
        have h1 := (collapse_tokens cs'.length cs' le_rfl).1
        rw [h1]
        have hwords' := wsTokensGo_words cs' [] (by simp)
        split
        · exact pyStrip_join_mark _ _ hwords' (Or.inr rfl)
        · exact pyStrip_join_mark _ _ hwords' (Or.inl rfl)
      rw [h2]
      rw [show wsTokens (c :: cs') = wsTokens cs' by
        simp [wsTokens, wsTokensGo, hsp]]
    · rw [show subWsGo false (c :: cs') = subWsGo true (c :: cs') by
        simp [subWsGo, hsp]]
      exact htrue

theorem wsTokensGo_append_space (ys : List Char) :
    ∀ (xs acc : List Char),
      wsTokensGo acc (xs ++ ' ' :: ys) = wsTokensGo acc xs ++ wsTokensGo [] ys := by
  intro xs
  induction xs with
  | nil =>
    intro acc
    simp only [List.nil_append, wsTokensGo]
    rw [if_pos (by decide)]
    rcases eq_or_ne acc [] with rfl | hacc
    · simp
    · rw [if_neg hacc, if_neg hacc]
      simp
  | cons x xs ih =>
    intro acc
    simp only [List.cons_append, wsTokensGo]
    by_cases hsp : pyIsSpace x = true
    · rw [if_pos hsp, if_pos hsp]
      rcases eq_or_ne acc [] with rfl | hacc
      · rw [if_pos rfl, if_pos rfl]
        exact ih []
      · rw [if_neg hacc, if_neg hacc]
        have hxs := ih []
        simp only [List.append_eq] at hxs ⊢
        rw [hxs]
        rfl
    · rw [if_neg hsp, if_neg hsp]
      exact ih (x :: acc)

theorem pyJoin_tokens (strs : List String) :
    wsTokens (pyJoin " " strs).data = strs.flatMap (fun s => wsTokens s.data) := by
  induction strs with
  | nil => rfl
  | cons x xs ih =>
    cases xs with
    | nil => simp [pyJoin]
    | cons y ys =>
      rw [show pyJoin " " (x :: y :: ys) = x ++ " " ++ pyJoin " " (y :: ys) from rfl]
      rw [show (x ++ " " ++ pyJoin " " (y :: ys)).data
          = x.data ++ ' ' :: (pyJoin " " (y :: ys)).data by
        simp [String.data_append]]
      rw [wsTokens, wsTokensGo_append_space]
      rw [show wsTokensGo [] x.data = wsTokens x.data from rfl,
        show wsTokensGo [] (pyJoin " " (y :: ys)).data
          = wsTokens (pyJoin " " (y :: ys)).data from rfl, ih]
      simp

theorem stripTokensL_cons (n : Node) (l : NodeList) :
    stripTokensL (.cons n l) = stripTokensN n ++ stripTokensL l := by
  unfold stripTokensL stripTokensN
  simp only [extractScriptStyleL]
  cases hn : extractScriptStyleN n with
  | none => simp
  | some m =>
    simp only [textStringsL]
    rw [List.flatMap_append]

mutual
theorem similarN_tokens (n1 n2 : Node) (h : similarN n1 n2 = true) :
    stripTokensN n1 = stripTokensN n2 := by
  cases n1 with
  | text s1 =>
    cases n2 with
    | text s2 =>
      have htok : wsTokens s1.data = wsTokens s2.data := by
        simpa [similarN] using h
      simp [stripTokensN, extractScriptStyleN, textStringsN, htok]
    | comment s2 => simp [similarN] at h
    | element t c => simp [similarN] at h
  | comment s1 =>
    cases n2 with
    | text s2 => simp [similarN] at h
    | comment s2 => rfl
    | element t c => simp [similarN] at h
  | element t1 c1 =>
    cases n2 with
    | text s2 => simp [similarN] at h
    | comment s2 => simp [similarN] at h
    | element t2 c2 =>
      simp only [similarN, Bool.and_eq_true, beq_iff_eq] at h
      obtain ⟨rfl, h2⟩ := h
      by_cases hss : t1 = "script" ∨ t1 = "style"
      · simp [stripTokensN, extractScriptStyleN, hss]
      · rw [if_neg hss] at h2
        have := similarL_tokens c1 c2 h2
        simpa [stripTokensN, extractScriptStyleN, hss, textStringsN,
          stripTokensL] using this

theorem similarL_tokens (l1 l2 : NodeList) (h : similarL l1 l2 = true) :
    stripTokensL l1 = stripTokensL l2 := by
  cases l1 with
  | nil =>
    cases l2 with
    | nil => rfl
    | cons n l => simp [similarL] at h
  | cons n1 t1 =>
    cases l2 with
    | nil => simp [similarL] at h
    | cons n2 t2 =>
      simp only [similarL, Bool.and_eq_true] at h
      rw [stripTokensL_cons, stripTokensL_cons,
        similarN_tokens n1 n2 h.1, similarL_tokens t1 t2 h.2]
end

/-- C3 as stated is false on the code: the two parsed documents consisting
of the single text node `"ab"` and the single text node `"a b"` differ only
in whitespace, yet extraction yields the different texts `"ab"` and
`"a b"` (whitespace runs are collapsed to one space, never deleted), hence
different hashes. -/
theorem c3_counterexample :
    wsOnlyDiffL (.cons (.text "ab") .nil) (.cons (.text "a b") .nil) = true ∧
    (clean_and_hash (.cons (.text "ab") .nil)).1 ≠
      (clean_and_hash (.cons (.text "a b") .nil)).1 := by
  exact ⟨by decide, by decide⟩

/-- C3 amended: extraction and hashing are invariant under changes confined
to script/style element content, comment content, and whitespace churn that
preserves each text node's whitespace-delimited word sequence (the collapse
step maps every text to its words joined by single spaces, so words
themselves must be preserved); in particular comment content never
influences the extracted text or the hash. -/
theorem c3_extraction_stability (d1 d2 : NodeList) (h : similarL d1 d2 = true) :
    clean_and_hash d1 = clean_and_hash d2 := by
  have htok := similarL_tokens d1 d2 h
  have hclean : clean_html d1 = clean_html d2 := by
    simp only [clean_html, get_text]
    rw [clean_norm, clean_norm, pyJoin_tokens, pyJoin_tokens]
    exact congrArg (fun ts => (⟨joinChar ' ' ts⟩ : String)) htok
  unfold clean_and_hash
  rw [hclean]

/-- Witness for C3 (amended): two documents differing in script content,
comment content and whitespace churn extract to identical text and hash. -/
theorem c3_extraction_stability_witness :
    clean_and_hash (.cons (.element "div" (.cons (.text " a  b ")
      (.cons (.element "script" (.cons (.text "var x = 1;") .nil))
      (.cons (.comment "old") .nil)))) .nil) =
    clean_and_hash (.cons (.element "div" (.cons (.text "a b")
      (.cons (.element "script" (.cons (.text "var y = 2;") .nil))
      (.cons (.comment "new") .nil)))) .nil) :=
  c3_extraction_stability _ _ (by decide)

/-! ## C7: idempotence of `normalize_url`

Character-level facts about `Char.toLower` (used to show the parsed scheme
stays `'#'`-free), then `'#'`-freeness of every `urldefrag`/`normalize_url`
output, then the idempotence analysis. -/


theorem char_toNat_ofNat (m : Nat) (h : m < 55296) : (Char.ofNat m).toNat = m := by
  have hv : m.isValidChar := Or.inl h
  unfold Char.ofNat
  rw [dif_pos hv]
  unfold Char.ofNatAux
  simp [Char.toNat, UInt32.toNat]

theorem char_toNat_toLower (c : Char) :
    c.toLower.toNat = if 65 ≤ c.toNat ∧ c.toNat ≤ 90 then c.toNat + 32 else c.toNat := by
  unfold Char.toLower
  split
  · rename_i hc
    rw [if_pos hc]
    exact char_toNat_ofNat _ (by omega)
  · rename_i hc
    rw [if_neg hc]

theorem char_toNat_injective {c d : Char} (h : c.toNat = d.toNat) : c = d := by
  apply Char.eq_of_val_eq
  exact UInt32.ext h

theorem toLower_eq_hash {c : Char} (h : c.toLower = '#') : c = '#' := by
  have h2 : c.toLower.toNat = 35 := by rw [h]; rfl
  rw [char_toNat_toLower] at h2
  apply char_toNat_injective
  show c.toNat = 35
  split at h2 <;> omega

theorem uint32_le_iff (x y : UInt32) : x ≤ y ↔ x.toNat ≤ y.toNat := Iff.rfl

theorem char_isUpper_iff (c : Char) : c.isUpper = true ↔ 65 ≤ c.toNat ∧ c.toNat ≤ 90 := by
  show (decide (c.val ≥ 65) && decide (c.val ≤ 90)) = true ↔ _
  rw [Bool.and_eq_true, decide_eq_true_iff, decide_eq_true_iff]
  exact and_congr (uint32_le_iff 65 c.val) (uint32_le_iff c.val 90)

theorem char_isLower_iff (c : Char) : c.isLower = true ↔ 97 ≤ c.toNat ∧ c.toNat ≤ 122 := by
  show (decide (c.val ≥ 97) && decide (c.val ≤ 122)) = true ↔ _
  rw [Bool.and_eq_true, decide_eq_true_iff, decide_eq_true_iff]
  exact and_congr (uint32_le_iff 97 c.val) (uint32_le_iff c.val 122)

theorem char_isDigit_iff (c : Char) : c.isDigit = true ↔ 48 ≤ c.toNat ∧ c.toNat ≤ 57 := by
  show (decide (c.val ≥ 48) && decide (c.val ≤ 57)) = true ↔ _
  rw [Bool.and_eq_true, decide_eq_true_iff, decide_eq_true_iff]
  exact and_congr (uint32_le_iff 48 c.val) (uint32_le_iff c.val 57)

theorem char_isAlpha_iff (c : Char) :
    c.isAlpha = true ↔ (65 ≤ c.toNat ∧ c.toNat ≤ 90) ∨ (97 ≤ c.toNat ∧ c.toNat ≤ 122) := by
  show (c.isUpper || c.isLower) = true ↔ _
  rw [Bool.or_eq_true, char_isUpper_iff, char_isLower_iff]

theorem char_isAlpha_toLower {c : Char} (h : c.isAlpha = true) : c.toLower.isAlpha = true := by
  rw [char_isAlpha_iff] at h ⊢
  rw [char_toNat_toLower]
  split <;> omega

theorem toLower_idem (c : Char) : c.toLower.toLower = c.toLower := by
  apply char_toNat_injective
  rw [char_toNat_toLower c.toLower, char_toNat_toLower c]
  by_cases hc : 65 ≤ c.toNat ∧ c.toNat ≤ 90
  · rw [if_pos hc, if_neg (by omega)]
  · rw [if_neg hc, if_neg hc]


/-! ## C7 lemma stack: hash-freeness of parser outputs -/

theorem splitFirst_eq {c : Char} :
    ∀ {l a b : List Char}, splitFirst c l = some (a, b) → l = a ++ c :: b := by
  intro l
  induction l with
  | nil => intro a b h; simp [splitFirst] at h
  | cons d ds ih =>
    intro a b h
    simp only [splitFirst] at h
    by_cases hd : d = c
    · rw [if_pos hd] at h
      cases h
      simp [hd]
    · rw [if_neg hd] at h
      cases hsp : splitFirst c ds with
      | none => rw [hsp] at h; simp at h
      | some p =>
        rw [hsp] at h
        simp only [Option.map_some'] at h
        cases h
        have := ih hsp
        simp [this]

theorem splitFirst_fst_not_mem {c : Char} :
    ∀ {l a b : List Char}, splitFirst c l = some (a, b) → c ∉ a := by
  intro l
  induction l with
  | nil => intro a b h; simp [splitFirst] at h
  | cons d ds ih =>
    intro a b h
    simp only [splitFirst] at h
    by_cases hd : d = c
    · rw [if_pos hd] at h
      cases h
      simp
    · rw [if_neg hd] at h
      cases hsp : splitFirst c ds with
      | none => rw [hsp] at h; simp at h
      | some p =>
        rw [hsp] at h
        simp only [Option.map_some'] at h
        cases h
        intro hmem
        rcases List.mem_cons.mp hmem with h1 | h1
        · exact hd h1.symm
        · exact ih hsp h1

theorem splitFirst_none {c : Char} :
    ∀ {l : List Char}, splitFirst c l = none → c ∉ l := by
  intro l
  induction l with
  | nil => intro _; simp
  | cons d ds ih =>
    intro h
    simp only [splitFirst] at h
    by_cases hd : d = c
    · rw [if_pos hd] at h; simp at h
    · rw [if_neg hd] at h
      intro hmem
      rcases List.mem_cons.mp hmem with h1 | h1
      · exact hd h1.symm
      · cases hsp : splitFirst c ds with
        | none => exact ih hsp h1
        | some p => rw [hsp] at h; simp at h

theorem netlocSplit_fst_no_delim :
    ∀ {l : List Char} {c : Char}, c ∈ (netlocSplit l).1 →
      ¬(c = '/' ∨ c = '?' ∨ c = '#') := by
  intro l
  induction l with
  | nil => intro c h; simp [netlocSplit] at h
  | cons d ds ih =>
    intro c h
    simp only [netlocSplit] at h
    by_cases hd : (d = '/' || d = '?' || d = '#') = true
    · rw [if_pos hd] at h; simp at h
    · rw [if_neg hd] at h
      simp only [List.mem_cons] at h
      rcases h with h1 | h1
      · subst h1
        simp only [Bool.or_eq_true, decide_eq_true_eq] at hd
        push_neg at hd
        intro hcon
        rcases hcon with h2 | h2 | h2
        · exact hd.1.1 h2
        · exact hd.1.2 h2
        · exact hd.2 h2
      · exact ih h1

theorem mem_lowerAscii {c : Char} {l : List Char} (h : c ∈ lowerAscii l) :
    ∃ d ∈ l, c = d.toLower := by
  simp only [lowerAscii, List.mem_map] at h
  rcases h with ⟨d, hd, hdc⟩
  exact ⟨d, hd, hdc.symm⟩

/-- The scheme produced by a successful `schemeSplit` never contains `'#'`. -/
theorem schemeSplit_no_hash {url s r : List Char}
    (h : schemeSplit url = some (s, r)) : '#' ∉ s := by
  simp only [schemeSplit] at h
  split at h
  · exact absurd h (by simp)
  · split at h
    · rename_i i hci hc
      cases h
      intro hmem
      rcases mem_lowerAscii hmem with ⟨d, hd, hdc⟩
      have hsc : isSchemeChar d = true := by
        have h2 := hc.2.2
        rw [List.all_eq_true] at h2
        exact h2 d hd
      have hdh : d = '#' := toLower_eq_hash hdc.symm
      subst hdh
      simp [isSchemeChar] at hsc
    · exact absurd h (by simp)

theorem fragSplit_fst_no_hash (u : List Char) : '#' ∉ (fragSplit u).1 := by
  simp only [fragSplit]
  cases h : splitFirst '#' u with
  | none => exact splitFirst_none h
  | some p =>
    cases p with
    | mk a b => exact splitFirst_fst_not_mem h

theorem querySplit_fst_sub (u : List Char) : ∀ x ∈ (querySplit u).1, x ∈ u := by
  simp only [querySplit]
  cases h : splitFirst '?' u with
  | none => exact fun x hx => hx
  | some p =>
    cases p with
    | mk a b =>
      intro x hx
      rw [splitFirst_eq h]
      exact List.mem_append_left _ hx

theorem querySplit_snd_sub (u : List Char) : ∀ x ∈ (querySplit u).2, x ∈ u := by
  simp only [querySplit]
  cases h : splitFirst '?' u with
  | none => exact fun x hx => by simp at hx
  | some p =>
    cases p with
    | mk a b =>
      intro x hx
      rw [splitFirst_eq h]
      exact List.mem_append_right _ (List.mem_cons_of_mem _ hx)

theorem netlocStage_fst_no_delim {r : List Char} {c : Char}
    (h : c ∈ (netlocStage r).1) : ¬(c = '/' ∨ c = '?' ∨ c = '#') := by
  simp only [netlocStage] at h
  split at h
  · exact netlocSplit_fst_no_delim h
  · simp at h

/-- All components of `urlsplitC` except the fragment are `'#'`-free whenever
the default scheme is (`urldefrag` and `urljoin` never put a `'#'` there). -/
theorem urlsplitC_no_hash (url ds : List Char) (hds : '#' ∉ ds) :
    '#' ∉ (urlsplitC url ds).scheme ∧ '#' ∉ (urlsplitC url ds).netloc ∧
    '#' ∉ (urlsplitC url ds).path ∧ '#' ∉ (urlsplitC url ds).query := by
  have hds2 : '#' ∉ removeUnsafe ds := fun hm => hds (List.mem_of_mem_filter hm)
  simp only [urlsplitC]
  split
  · rename_i sch rest heq
    refine ⟨schemeSplit_no_hash heq, ?_, ?_, ?_⟩
    · exact fun hx => netlocStage_fst_no_delim hx (Or.inr (Or.inr rfl))
    · exact fun hx => fragSplit_fst_no_hash _ (querySplit_fst_sub _ _ hx)
    · exact fun hx => fragSplit_fst_no_hash _ (querySplit_snd_sub _ _ hx)
  · refine ⟨hds2, ?_, ?_, ?_⟩
    · exact fun hx => netlocStage_fst_no_delim hx (Or.inr (Or.inr rfl))
    · exact fun hx => fragSplit_fst_no_hash _ (querySplit_fst_sub _ _ hx)
    · exact fun hx => fragSplit_fst_no_hash _ (querySplit_snd_sub _ _ hx)

theorem contains_iff_mem {l : List Char} {c : Char} : l.contains c = true ↔ c ∈ l :=
  List.elem_iff

theorem splitparams_fst_sub (u : List Char) : ∀ x ∈ (splitparams u).1, x ∈ u := by
  simp only [splitparams]
  split <;> split <;> intro x hx <;>
    first
      | exact List.mem_of_mem_take hx
      | exact hx

/-- The parser components other than the fragment are `'#'`-free. -/
theorem urlparseC_no_hash (url ds : List Char) (hds : '#' ∉ ds) :
    '#' ∉ (urlparseC url ds).scheme ∧ '#' ∉ (urlparseC url ds).netloc ∧
    '#' ∉ (urlparseC url ds).path ∧ '#' ∉ (urlparseC url ds).params ∧
    '#' ∉ (urlparseC url ds).query := by
  obtain ⟨h1, h2, h3, h4⟩ := urlsplitC_no_hash url ds hds
  simp only [urlparseC]
  split
  · refine ⟨h1, h2, ?_, ?_, h4⟩
    · exact fun hx => h3 (splitparams_fst_sub _ _ hx)
    · -- params = (splitparams path).2, a drop of path
      intro hx
      apply h3
      revert hx
      simp only [splitparams]
      split <;> split <;> intro hx <;>
        first
          | exact List.mem_of_mem_drop hx
          | simp at hx
  · exact ⟨h1, h2, h3, by simp, h4⟩

theorem mem_suffixWrap {x c : Char} {q Y : List Char}
    (hx : x ∈ if q ≠ [] then Y ++ c :: q else Y) :
    x ∈ Y ∨ (q ≠ [] ∧ (x = c ∨ x ∈ q)) := by
  split at hx
  · rename_i hq
    rcases List.mem_append.mp hx with h | h
    · tauto
    · rcases List.mem_cons.mp h with h | h <;> tauto
  · tauto

theorem mem_prefixWrap {x c : Char} {s Z : List Char}
    (hx : x ∈ if s ≠ [] then s ++ c :: Z else Z) :
    x ∈ s ∨ x = c ∨ x ∈ Z := by
  split at hx
  · rcases List.mem_append.mp hx with h | h
    · tauto
    · rcases List.mem_cons.mp h with h | h <;> tauto
  · tauto

theorem mem_netlocWrap (cond : Prop) [Decidable cond] {x : Char} {n u : List Char}
    (hx : x ∈ if cond then
      '/' :: '/' :: (n ++ if u ≠ [] ∧ u.take 1 ≠ ['/'] then '/' :: u else u)
      else u) :
    x ∈ n ∨ x ∈ u ∨ x = '/' := by
  split at hx
  · rcases List.mem_cons.mp hx with h | h
    · tauto
    rcases List.mem_cons.mp h with h | h
    · tauto
    rcases List.mem_append.mp h with h | h
    · tauto
    split at h
    · rcases List.mem_cons.mp h with h | h <;> tauto
    · tauto
  · tauto

/-- Characters of `urlunsplit` output: each comes from a component or is a
separator, and `'#'` or fragment characters appear only when the fragment is
non-empty. -/
theorem mem_urlunsplitC {x : Char} {s n u q f : List Char}
    (hx : x ∈ urlunsplitC s n u q f) :
    (x ∈ s ∨ x ∈ n ∨ x ∈ u ∨ x ∈ q ∨ x = '/' ∨ x = ':' ∨ x = '?') ∨
      (f ≠ [] ∧ (x ∈ f ∨ x = '#')) := by
  simp only [urlunsplitC] at hx
  rcases mem_suffixWrap hx with hx | hf
  · rcases mem_suffixWrap hx with hx | hq
    · rcases mem_prefixWrap hx with hx | hx | hx
      · tauto
      · tauto
      · rcases mem_netlocWrap _ hx with h | h | h <;> tauto
    · tauto
  · tauto

/-- The defragmented URL returned by `urldefrag` never contains `'#'`. -/
theorem urldefragC_fst_no_hash (url : List Char) : '#' ∉ (urldefragC url).1 := by
  simp only [urldefragC]
  split
  · intro hx
    obtain ⟨h1, h2, h3, h4, h5⟩ := urlparseC_no_hash url [] (by simp)
    simp only [urlunparseC] at hx
    rcases mem_urlunsplitC hx with h | h
    · rcases h with h | h | h | h | h | h | h
      · exact h1 h
      · exact h2 h
      · split at h
        · rcases List.mem_append.mp h with h | h
          · exact h3 h
          · rcases List.mem_cons.mp h with h | h
            · simp at h
            · exact h4 h
        · exact h3 h
      · exact h5 h
      all_goals simp at h
    · exact absurd rfl h.1
  · rename_i hcon
    intro hx
    exact hcon (contains_iff_mem.mpr hx)

theorem mem_rstripSlashes {c : Char} {l : List Char} (h : c ∈ rstripSlashes l) :
    c ∈ l := by
  simp only [rstripSlashes] at h
  rw [List.mem_reverse] at h
  exact List.mem_reverse.mp ((List.dropWhile_sublist _).mem h)

/-- `urldefrag` is the identity on `'#'`-free URLs. -/
theorem urldefragC_of_no_hash {x : List Char} (h : '#' ∉ x) :
    urldefragC x = (x, []) := by
  simp only [urldefragC]
  rw [if_neg (fun hc => h (contains_iff_mem.mp hc))]

/-- `normalize_url` output never contains `'#'` (the fragment is dropped and
no later step reintroduces one). -/
theorem normalize_url_no_hash (u b : String) : '#' ∉ (normalize_url u b).data := by
  simp only [normalize_url]
  split
  · exact fun hx => urldefragC_fst_no_hash _ (mem_rstripSlashes hx)
  · exact fun hx => urldefragC_fst_no_hash _ hx

/-- `normalize_url` output either does not end in `'/'` or is exactly the
preserved `base_url.rstrip('/') + '/'`. -/
theorem normalize_url_trailing (u b : String) :
    (normalize_url u b).data.getLast? ≠ some '/' ∨
    (normalize_url u b).data = rstripSlashes b.data ++ ['/'] := by
  simp only [normalize_url]
  split
  · exact Or.inl (rstripSlashes_getLast? _)
  · rename_i hcond
    rcases not_and_or.mp hcond with h | h
    · exact Or.inl h
    · exact Or.inr (not_not.mp h)

/-- A URL already in normal form (`'#'`-free, absolute w.r.t. `b`, trailing
slash policy satisfied) is a fixed point of `normalize_url`. -/
theorem normalize_url_fixed (x b : String) (hnh : '#' ∉ x.data)
    (hj : urljoinC b.data x.data = x.data)
    (htr : x.data.getLast? ≠ some '/' ∨ x.data = rstripSlashes b.data ++ ['/']) :
    normalize_url x b = x := by
  simp only [normalize_url]
  rw [hj, urldefragC_of_no_hash hnh]
  rcases htr with h | h
  · rw [if_neg (fun hc => h hc.1)]
  · rw [if_neg (fun hc => hc.2 h)]

/-- C7 (amended): `normalize_url` is idempotent at every point where the
resolution step is stable, i.e. whenever re-joining the first result against
the base returns it unchanged (`urljoin(b, normalize_url(u, b)) ==
normalize_url(u, b)`); the fragment-drop and trailing-slash steps are
always idempotent. -/
theorem c7_normalize_idempotent_of_stable (u b : String)
    (hstab : urljoin b (normalize_url u b) = normalize_url u b) :
    normalize_url (normalize_url u b) b = normalize_url u b :=
  normalize_url_fixed (normalize_url u b) b (normalize_url_no_hash u b)
    (congrArg String.data hstab) (normalize_url_trailing u b)

/-- C7 as stated is false on the code: `normalize_url` is not idempotent in
general.  With base `"http://h/"`, the URL `"http://h/p/?/"` normalizes to
`"http://h/p/?"` (the trailing-slash strip eats into the query), and
normalizing that again yields `"http://h/p"` (re-parsing finds an empty
query, so `urlunparse` drops the `'?'`, and the new trailing component is
stripped further). -/
theorem c7_counterexample :
    normalize_url (normalize_url "http://h/p/?/" "http://h/") "http://h/" ≠
      normalize_url "http://h/p/?/" "http://h/" := by decide

theorem c7_normalize_idempotent_of_stable_witness :
    urljoin "http://h/" (normalize_url "a" "http://h/") = normalize_url "a" "http://h/" ∧
    normalize_url (normalize_url "a" "http://h/") "http://h/" =
      normalize_url "a" "http://h/" :=
  ⟨by decide, c7_normalize_idempotent_of_stable "a" "http://h/" (by decide)⟩

/-! ## C6: domain scoping of result keys

The chain: component facts of `urlsplit`/`urlparse` (cleanliness, scheme
wellformedness, netloc delimiter-freeness), the netloc read back from a
reassembled URL, invariance of the netloc under `rstrip('/')`, the branch
analysis of `urljoin` on frontier elements, and the crawl-loop invariant. -/

/-! ## C6 lemma stack, part 1: parser component facts -/

theorem charIdx_lt_length {c : Char} :
    ∀ {l : List Char} {i : Nat}, charIdx c l = some i → i < l.length := by
  intro l
  induction l with
  | nil => intro i h; simp [charIdx] at h
  | cons d ds ih =>
    intro i h
    simp only [charIdx] at h
    by_cases hd : d = c
    · rw [if_pos hd] at h
      cases h
      simp
    · rw [if_neg hd] at h
      cases hci : charIdx c ds with
      | none => rw [hci] at h; simp at h
      | some j =>
        rw [hci] at h
        simp only [Option.map_some'] at h
        cases h
        simpa using Nat.succ_lt_succ (ih hci)

theorem charIdx_none_iff {c : Char} :
    ∀ {l : List Char}, charIdx c l = none ↔ c ∉ l := by
  intro l
  induction l with
  | nil => simp [charIdx]
  | cons d ds ih =>
    simp only [charIdx, List.mem_cons]
    by_cases hd : d = c
    · rw [if_pos hd]
      simp [hd]
    · rw [if_neg hd]
      constructor
      · intro h hcon
        rcases hcon with h1 | h1
        · exact hd h1.symm
        · exact (ih.mp (by simpa using h)) h1
      · intro hcon
        rw [ih.mpr (fun hm => hcon (Or.inr hm))]
        rfl

theorem charIdx_append_left {c : Char} :
    ∀ {l : List Char} {i : Nat} (m : List Char),
      charIdx c l = some i → charIdx c (l ++ m) = some i := by
  intro l
  induction l with
  | nil => intro i m h; simp [charIdx] at h
  | cons d ds ih =>
    intro i m h
    rw [List.cons_append]
    simp only [charIdx] at h ⊢
    by_cases hd : d = c
    · rw [if_pos hd] at h ⊢
      exact h
    · rw [if_neg hd] at h ⊢
      cases hci : charIdx c ds with
      | none => rw [hci] at h; simp at h
      | some j =>
        rw [hci] at h
        rw [ih m hci]
        exact h

/-- Full description of a successful scheme detection. -/
theorem schemeSplit_some_parts {u s r : List Char} (h : schemeSplit u = some (s, r)) :
    ∃ i, charIdx ':' u = some i ∧ 0 < i ∧ (u.headD ' ').isAlpha = true ∧
      (u.take i).all isSchemeChar = true ∧ s = lowerAscii (u.take i) ∧
      r = u.drop (i + 1) := by
  simp only [schemeSplit] at h
  split at h
  · simp at h
  · split at h
    · rename_i i hci hc
      cases h
      exact ⟨i, hci, hc.1, hc.2.1, hc.2.2, rfl, rfl⟩
    · simp at h

theorem toLower_eq_of_lt {c d : Char} (h : c.toLower = d) (hd : d.toNat < 65) :
    c = d := by
  apply char_toNat_injective
  have h2 : c.toLower.toNat = d.toNat := by rw [h]
  rw [char_toNat_toLower] at h2
  split at h2 <;> omega

theorem toLower_eq_self_of_lt {c : Char} (h : c.toNat < 65) : c.toLower = c := by
  apply char_toNat_injective
  rw [char_toNat_toLower, if_neg (by omega)]

theorem isSchemeChar_toLower {c : Char} (h : isSchemeChar c = true) :
    isSchemeChar c.toLower = true := by
  by_cases ha : c.isAlpha = true
  · simp only [isSchemeChar, Bool.or_eq_true]
    exact Or.inl (Or.inl (Or.inl (Or.inl (char_isAlpha_toLower ha))))
  · have hlt : ¬(65 ≤ c.toNat ∧ c.toNat ≤ 90) := by
      intro hc
      exact ha ((char_isAlpha_iff c).mpr (Or.inl hc))
    have hid : c.toLower = c :=
      char_toNat_injective (by rw [char_toNat_toLower, if_neg hlt])
    rw [hid]
    exact h

theorem unsafeChar_toLower {c : Char} (h : unsafeChar c = false) :
    unsafeChar c.toLower = false := by
  by_contra hcon
  rw [Bool.not_eq_false] at hcon
  simp only [unsafeChar, Bool.or_eq_true, decide_eq_true_eq] at hcon
  simp only [unsafeChar, Bool.or_eq_false_iff, decide_eq_false_iff_not] at h
  rcases hcon with (h1 | h1) | h1
  · exact h.1.1 (toLower_eq_of_lt h1 (by decide))
  · exact h.1.2 (toLower_eq_of_lt h1 (by decide))
  · exact h.2 (toLower_eq_of_lt h1 (by decide))

theorem netlocSplit_fst_sub : ∀ {l : List Char}, ∀ c ∈ (netlocSplit l).1, c ∈ l := by
  intro l
  induction l with
  | nil => intro c hc; simp [netlocSplit] at hc
  | cons d ds ih =>
    intro c hc
    simp only [netlocSplit] at hc
    split at hc
    · simp at hc
    · rcases List.mem_cons.mp hc with h1 | h1
      · exact h1 ▸ List.mem_cons_self _ _
      · exact List.mem_cons_of_mem _ (ih c h1)

theorem netlocSplit_snd_sub : ∀ {l : List Char}, ∀ c ∈ (netlocSplit l).2, c ∈ l := by
  intro l
  induction l with
  | nil => intro c hc; simp [netlocSplit] at hc
  | cons d ds ih =>
    intro c hc
    simp only [netlocSplit] at hc
    split at hc
    · exact hc
    · exact List.mem_cons_of_mem _ (ih c hc)

theorem netlocStage_fst_sub {r : List Char} : ∀ c ∈ (netlocStage r).1, c ∈ r := by
  intro c hc
  simp only [netlocStage] at hc
  split at hc
  · exact List.mem_of_mem_drop (netlocSplit_fst_sub c hc)
  · simp at hc

theorem netlocStage_snd_sub {r : List Char} : ∀ c ∈ (netlocStage r).2, c ∈ r := by
  intro c hc
  simp only [netlocStage] at hc
  split at hc
  · exact List.mem_of_mem_drop (netlocSplit_snd_sub c hc)
  · exact hc

theorem fragSplit_fst_sub (u : List Char) : ∀ c ∈ (fragSplit u).1, c ∈ u := by
  simp only [fragSplit]
  cases h : splitFirst '#' u with
  | none => exact fun c hc => hc
  | some p =>
    cases p with
    | mk a b =>
      intro c hc
      rw [splitFirst_eq h]
      exact List.mem_append_left _ hc

theorem fragSplit_snd_sub (u : List Char) : ∀ c ∈ (fragSplit u).2, c ∈ u := by
  simp only [fragSplit]
  cases h : splitFirst '#' u with
  | none => exact fun c hc => by simp at hc
  | some p =>
    cases p with
    | mk a b =>
      intro c hc
      rw [splitFirst_eq h]
      exact List.mem_append_right _ (List.mem_cons_of_mem _ hc)

theorem splitparams_snd_sub (u : List Char) : ∀ x ∈ (splitparams u).2, x ∈ u := by
  simp only [splitparams]
  split <;> split <;> intro x hx <;>
    first
      | exact List.mem_of_mem_drop hx
      | simp at hx

theorem removeUnsafe_clean (l : List Char) :
    ∀ c ∈ removeUnsafe l, unsafeChar c = false := by
  intro c hc
  simp only [removeUnsafe, List.mem_filter, Bool.not_eq_true'] at hc
  exact hc.2

theorem removeUnsafe_eq_self {l : List Char}
    (h : ∀ c ∈ l, unsafeChar c = false) : removeUnsafe l = l :=
  List.filter_eq_self.mpr (fun a ha => by rw [h a ha]; rfl)

theorem removeUnsafe_append (a b : List Char) :
    removeUnsafe (a ++ b) = removeUnsafe a ++ removeUnsafe b := by
  simp [removeUnsafe]

/-- Every component of `urlsplit` is free of the unsafe bytes (they are
filtered from the input and from the default scheme, and lowercasing cannot
introduce them). -/
theorem urlsplitC_clean (x ds : List Char) :
    (∀ c ∈ (urlsplitC x ds).scheme, unsafeChar c = false) ∧
    (∀ c ∈ (urlsplitC x ds).netloc, unsafeChar c = false) ∧
    (∀ c ∈ (urlsplitC x ds).path, unsafeChar c = false) ∧
    (∀ c ∈ (urlsplitC x ds).query, unsafeChar c = false) ∧
    (∀ c ∈ (urlsplitC x ds).fragment, unsafeChar c = false) := by
  have hu : ∀ c ∈ removeUnsafe x, unsafeChar c = false := removeUnsafe_clean x
  simp only [urlsplitC]
  split
  · rename_i s r heq
    obtain ⟨i, hci, hi, hha, hsc, hs, hr⟩ := schemeSplit_some_parts heq
    have hrc : ∀ c ∈ r, unsafeChar c = false := by
      intro c hc
      rw [hr] at hc
      exact hu c (List.mem_of_mem_drop hc)
    refine ⟨?_, ?_, ?_, ?_, ?_⟩
    · intro c hc
      rw [hs] at hc
      rcases mem_lowerAscii hc with ⟨d, hd, hdc⟩
      rw [hdc]
      exact unsafeChar_toLower (hu d (List.mem_of_mem_take hd))
    · exact fun c hc => hrc c (netlocStage_fst_sub c hc)
    · exact fun c hc =>
        hrc c (netlocStage_snd_sub c (fragSplit_fst_sub _ c (querySplit_fst_sub _ c hc)))
    · exact fun c hc =>
        hrc c (netlocStage_snd_sub c (fragSplit_fst_sub _ c (querySplit_snd_sub _ c hc)))
    · exact fun c hc => hrc c (netlocStage_snd_sub c (fragSplit_snd_sub _ c hc))
  · refine ⟨removeUnsafe_clean ds, ?_, ?_, ?_, ?_⟩
    · exact fun c hc => hu c (netlocStage_fst_sub c hc)
    · exact fun c hc =>
        hu c (netlocStage_snd_sub c (fragSplit_fst_sub _ c (querySplit_fst_sub _ c hc)))
    · exact fun c hc =>
        hu c (netlocStage_snd_sub c (fragSplit_fst_sub _ c (querySplit_snd_sub _ c hc)))
    · exact fun c hc => hu c (netlocStage_snd_sub c (fragSplit_snd_sub _ c hc))

/-- With a detected scheme the parse is independent of the default scheme. -/
theorem urlsplitC_of_detected {x : List Char} {p : List Char × List Char}
    (h : schemeSplit (removeUnsafe x) = some p) (ds : List Char) :
    urlsplitC x ds = urlsplitC x [] := by
  obtain ⟨s, r⟩ := p
  simp only [urlsplitC]
  rw [h]

/-- The netloc does not depend on the default scheme at all. -/
theorem urlsplitC_netloc_ds (x ds : List Char) :
    (urlsplitC x ds).netloc = (urlsplitC x []).netloc := by
  cases hss : schemeSplit (removeUnsafe x) with
  | some p => rw [urlsplitC_of_detected hss]
  | none =>
    simp only [urlsplitC]
    rw [hss]

theorem urlparseC_netloc (x ds : List Char) :
    (urlparseC x ds).netloc = (urlsplitC x ds).netloc := by
  simp only [urlparseC]
  split <;> rfl

theorem urlparseC_scheme (x ds : List Char) :
    (urlparseC x ds).scheme = (urlsplitC x ds).scheme := by
  simp only [urlparseC]
  split <;> rfl

theorem urlparseC_query (x ds : List Char) :
    (urlparseC x ds).query = (urlsplitC x ds).query := by
  simp only [urlparseC]
  split <;> rfl

theorem urlparseC_fragment (x ds : List Char) :
    (urlparseC x ds).fragment = (urlsplitC x ds).fragment := by
  simp only [urlparseC]
  split <;> rfl

theorem urlparseC_of_detected {x : List Char} {p : List Char × List Char}
    (h : schemeSplit (removeUnsafe x) = some p) (ds : List Char) :
    urlparseC x ds = urlparseC x [] := by
  simp only [urlparseC]
  rw [urlsplitC_of_detected h ds]

/-- All six `urlparse` components are free of the unsafe bytes. -/
theorem urlparseC_clean (x ds : List Char) :
    (∀ c ∈ (urlparseC x ds).scheme, unsafeChar c = false) ∧
    (∀ c ∈ (urlparseC x ds).netloc, unsafeChar c = false) ∧
    (∀ c ∈ (urlparseC x ds).path, unsafeChar c = false) ∧
    (∀ c ∈ (urlparseC x ds).params, unsafeChar c = false) ∧
    (∀ c ∈ (urlparseC x ds).query, unsafeChar c = false) ∧
    (∀ c ∈ (urlparseC x ds).fragment, unsafeChar c = false) := by
  obtain ⟨h1, h2, h3, h4, h5⟩ := urlsplitC_clean x ds
  simp only [urlparseC]
  split
  · refine ⟨h1, h2, ?_, ?_, h4, h5⟩
    · exact fun c hc => h3 c (splitparams_fst_sub _ c hc)
    · exact fun c hc => h3 c (splitparams_snd_sub _ c hc)
  · exact ⟨h1, h2, h3, by simp, h4, h5⟩

/-- Wellformedness of a detected scheme: non-empty, scheme characters only,
leading ASCII letter. -/
theorem schemeSplit_wf {u s r : List Char} (h : schemeSplit u = some (s, r)) :
    s ≠ [] ∧ s.all isSchemeChar = true ∧ (s.headD ' ').isAlpha = true := by
  obtain ⟨i, hci, hi, hha, hsc, hs, hr⟩ := schemeSplit_some_parts h
  have hlen : i < u.length := charIdx_lt_length hci
  have htne : u.take i ≠ [] := by
    intro hcon
    have h2 := congrArg List.length hcon
    simp only [List.length_take, List.length_nil] at h2
    omega
  refine ⟨?_, ?_, ?_⟩
  · rw [hs]
    simp only [lowerAscii, ne_eq, List.map_eq_nil_iff]
    exact htne
  · rw [hs, List.all_eq_true]
    intro c hc
    rcases mem_lowerAscii hc with ⟨d, hd, hdc⟩
    rw [hdc]
    exact isSchemeChar_toLower ((List.all_eq_true.mp hsc) d hd)
  · cases u with
    | nil => simp at hlen
    | cons a as =>
      rw [hs]
      cases i with
      | zero => omega
      | succ j =>
        rw [List.take_succ_cons]
        simp only [lowerAscii, List.map_cons, List.headD_cons]
        exact char_isAlpha_toLower (by simpa using hha)

/-- The scheme a parse returns is `[]`, the (cleaned) default, or a
wellformed detected scheme. -/
theorem urlsplitC_scheme_wf (x : List Char) :
    (urlsplitC x []).scheme = [] ∨
    ((urlsplitC x []).scheme ≠ [] ∧ (urlsplitC x []).scheme.all isSchemeChar = true ∧
      (((urlsplitC x []).scheme).headD ' ').isAlpha = true) := by
  simp only [urlsplitC]
  split
  · rename_i s r heq
    exact Or.inr (schemeSplit_wf heq)
  · left
    rfl

/-! ## C6 lemma stack, part 2: the netloc of a reassembled URL -/

theorem netlocSplit_exact {nl t : List Char}
    (hnl : ∀ x ∈ nl, ¬(x = '/' ∨ x = '?' ∨ x = '#'))
    (ht : t = [] ∨ t.headD ' ' = '/' ∨ t.headD ' ' = '?' ∨ t.headD ' ' = '#') :
    netlocSplit (nl ++ t) = (nl, t) := by
  induction nl with
  | nil =>
    simp only [List.nil_append]
    cases t with
    | nil => rfl
    | cons c cs =>
      rcases ht with h | h | h | h
      · simp at h
      all_goals
        simp only [List.headD_cons] at h
        subst h
        simp [netlocSplit]
  | cons d ds ih =>
    have hd := hnl d (List.mem_cons_self _ _)
    push_neg at hd
    simp only [List.cons_append, netlocSplit]
    rw [if_neg (by simp [hd.1, hd.2.1, hd.2.2])]
    simp only [List.append_eq]
    rw [ih (fun x hx => hnl x (List.mem_cons_of_mem _ hx))]

theorem headD_append_of_ne_nil {s m : List Char} (h : s ≠ []) (d : Char) :
    (s ++ m).headD d = s.headD d := by
  cases s with
  | nil => exact absurd rfl h
  | cons a as => rfl

theorem schemeSplit_not_alpha {l : List Char}
    (h : (l.headD ' ').isAlpha = false) : schemeSplit l = none := by
  simp only [schemeSplit]
  split
  · rfl
  · rw [if_neg]
    intro hc
    rw [hc.2.1] at h
    exact Bool.noConfusion h

theorem charIdx_first_after {s : List Char} (x : List Char) (h : ':' ∉ s) :
    charIdx ':' (s ++ ':' :: x) = some s.length := by
  induction s with
  | nil => simp [charIdx]
  | cons d ds ih =>
    simp only [List.cons_append, charIdx]
    rw [if_neg (fun hcon => h (by rw [hcon]; exact List.mem_cons_self _ _))]
    simp only [List.append_eq]
    rw [ih (fun hm => h (List.mem_cons_of_mem _ hm))]
    simp

/-- Scheme detection on a wellformed `scheme:rest` string. -/
theorem schemeSplit_exact {s : List Char} (x : List Char) (hne : s ≠ [])
    (hall : s.all isSchemeChar = true) (hha : (s.headD ' ').isAlpha = true) :
    schemeSplit (s ++ ':' :: x) = some (lowerAscii s, x) := by
  have hcolon : ':' ∉ s := by
    intro hm
    have := (List.all_eq_true.mp hall) ':' hm
    simp [isSchemeChar] at this
  have hd : (s ++ ':' :: x).drop (s.length + 1) = x := by
    rw [show s.length + 1 = (s ++ [':']).length from by simp,
      show s ++ ':' :: x = (s ++ [':']) ++ x from by simp]
    exact List.drop_left _ _
  simp only [schemeSplit, charIdx_first_after x hcolon]
  rw [if_pos ⟨by simpa using List.length_pos.mpr hne,
      by rw [headD_append_of_ne_nil hne]; exact hha,
      by rw [List.take_left]; exact hall⟩]
  rw [List.take_left, hd]

theorem netlocStage_slash2 (y : List Char) :
    netlocStage ('/' :: '/' :: y) = netlocSplit y := by
  simp [netlocStage]

/-- The netloc that `urlsplit` reads back from an assembled
`[scheme:]//netloc[t]` string is exactly the assembled netloc, provided the
scheme is absent or wellformed, the netloc is non-empty and delimiter-free,
everything is free of unsafe bytes, and the tail starts with a delimiter. -/
theorem netloc_of_assembled (s nl t ds : List Char)
    (hs : s = [] ∨ (s ≠ [] ∧ s.all isSchemeChar = true ∧ (s.headD ' ').isAlpha = true))
    (hsc : ∀ c ∈ s, unsafeChar c = false)
    (_hnl : nl ≠ [])
    (hnld : ∀ x ∈ nl, ¬(x = '/' ∨ x = '?' ∨ x = '#'))
    (hnlc : ∀ c ∈ nl, unsafeChar c = false)
    (htc : ∀ c ∈ t, unsafeChar c = false)
    (ht : t = [] ∨ t.headD ' ' = '/' ∨ t.headD ' ' = '?' ∨ t.headD ' ' = '#') :
    (urlsplitC ((if s ≠ [] then s ++ [':'] else []) ++ '/' :: '/' :: (nl ++ t)) ds).netloc
      = nl := by
  have hclean :
      removeUnsafe ((if s ≠ [] then s ++ [':'] else []) ++ '/' :: '/' :: (nl ++ t)) =
        (if s ≠ [] then s ++ [':'] else []) ++ '/' :: '/' :: (nl ++ t) := by
    apply removeUnsafe_eq_self
    intro c hc
    rcases List.mem_append.mp hc with h | h
    · split at h
      · rcases List.mem_append.mp h with h2 | h2
        · exact hsc c h2
        · simp only [List.mem_singleton] at h2
          subst h2
          decide
      · simp at h
    · rcases List.mem_cons.mp h with h2 | h2
      · subst h2; decide
      rcases List.mem_cons.mp h2 with h3 | h3
      · subst h3; decide
      rcases List.mem_append.mp h3 with h4 | h4
      · exact hnlc c h4
      · exact htc c h4
  rcases hs with hs0 | ⟨hne, hall, hha⟩
  · subst hs0
    simp only [ne_eq, not_true_eq_false, if_false, List.nil_append] at hclean ⊢
    simp only [urlsplitC]
    rw [hclean, schemeSplit_not_alpha (by rfl)]
    simp only [netlocStage_slash2, netlocSplit_exact hnld ht]
  · rw [if_pos hne] at hclean ⊢
    have hform : (s ++ [':']) ++ '/' :: '/' :: (nl ++ t) =
        s ++ ':' :: ('/' :: '/' :: (nl ++ t)) := by simp
    simp only [urlsplitC]
    rw [hclean, hform, schemeSplit_exact _ hne hall hha]
    simp only [netlocStage_slash2, netlocSplit_exact hnld ht]

/-- Shape of `urlunsplit` output when the netloc is non-empty. -/
theorem urlunsplitC_shape (s nl u q f : List Char) (hnl : nl ≠ []) :
    ∃ t, urlunsplitC s nl u q f =
        (if s ≠ [] then s ++ [':'] else []) ++ '/' :: '/' :: (nl ++ t) ∧
      (t = [] ∨ t.headD ' ' = '/' ∨ t.headD ' ' = '?' ∨ t.headD ' ' = '#') ∧
      (∀ c ∈ t, c ∈ u ∨ c ∈ q ∨ c ∈ f ∨ c = '/' ∨ c = '?' ∨ c = '#') := by
  refine ⟨(if u ≠ [] ∧ u.take 1 ≠ ['/'] then '/' :: u else u) ++
      ((if q ≠ [] then '?' :: q else []) ++ (if f ≠ [] then '#' :: f else [])),
    ?_, ?_, ?_⟩
  · simp only [urlunsplitC]
    rw [if_pos (Or.inl hnl)]
    by_cases hs' : s ≠ [] <;> by_cases hq : q ≠ [] <;> by_cases hf : f ≠ [] <;>
      simp [hs', hq, hf, List.append_assoc]
  · by_cases hu : u ≠ [] ∧ u.take 1 ≠ ['/']
    · rw [if_pos hu]
      right; left
      rfl
    · rw [if_neg hu]
      cases u with
      | nil =>
        simp only [List.nil_append]
        by_cases hq : q ≠ []
        · rw [if_pos hq]
          right; right; left
          rfl
        · rw [if_neg hq]
          simp only [List.nil_append]
          by_cases hf : f ≠ []
          · rw [if_pos hf]
            right; right; right
            rfl
          · rw [if_neg hf]
            exact Or.inl rfl
      | cons c cu =>
        push_neg at hu
        have hc : c = '/' := by
          have h2 := hu (by simp)
          simpa using congrArg (fun l => l.headD ' ') h2
        subst hc
        right; left
        rfl
  · intro c hc
    rcases List.mem_append.mp hc with h | h
    · split at h
      · rcases List.mem_cons.mp h with h2 | h2 <;> tauto
      · tauto
    · rcases List.mem_append.mp h with h2 | h2
      · split at h2
        · rcases List.mem_cons.mp h2 with h3 | h3 <;> tauto
        · simp at h2
      · split at h2
        · rcases List.mem_cons.mp h2 with h3 | h3 <;> tauto
        · simp at h2

/-- Shape of `urlunparse` output when the netloc is non-empty. -/
theorem urlunparseC_shape (s nl p a q f : List Char) (hnl : nl ≠ []) :
    ∃ t, urlunparseC s nl p a q f =
        (if s ≠ [] then s ++ [':'] else []) ++ '/' :: '/' :: (nl ++ t) ∧
      (t = [] ∨ t.headD ' ' = '/' ∨ t.headD ' ' = '?' ∨ t.headD ' ' = '#') ∧
      (∀ c ∈ t, c ∈ p ∨ c ∈ a ∨ c ∈ q ∨ c ∈ f ∨ c = '/' ∨ c = ';' ∨ c = '?' ∨ c = '#') := by
  obtain ⟨t, heq, hth, htm⟩ :=
    urlunsplitC_shape s nl (if a ≠ [] then p ++ ';' :: a else p) q f hnl
  refine ⟨t, heq, hth, ?_⟩
  intro c hc
  rcases htm c hc with h | h | h | h | h | h
  · split at h
    · rcases List.mem_append.mp h with h2 | h2
      · tauto
      · rcases List.mem_cons.mp h2 with h3 | h3 <;> tauto
    · tauto
  all_goals tauto

/-- `urlsplit` recovers the non-empty netloc given to `urlunparse` when the
scheme is absent or wellformed and everything is clean. -/
theorem unparse_parse_netloc (s nl p a q f ds : List Char)
    (hs : s = [] ∨ (s ≠ [] ∧ s.all isSchemeChar = true ∧ (s.headD ' ').isAlpha = true))
    (hsc : ∀ c ∈ s, unsafeChar c = false)
    (hnl : nl ≠ [])
    (hnld : ∀ x ∈ nl, ¬(x = '/' ∨ x = '?' ∨ x = '#'))
    (hnlc : ∀ c ∈ nl, unsafeChar c = false)
    (hpc : ∀ c ∈ p, unsafeChar c = false) (hac : ∀ c ∈ a, unsafeChar c = false)
    (hqc : ∀ c ∈ q, unsafeChar c = false) (hfc : ∀ c ∈ f, unsafeChar c = false) :
    (urlsplitC (urlunparseC s nl p a q f) ds).netloc = nl := by
  obtain ⟨t, heq, hth, htm⟩ := urlunparseC_shape s nl p a q f hnl
  rw [heq]
  apply netloc_of_assembled s nl t ds hs hsc hnl hnld hnlc ?_ hth
  intro c hc
  rcases htm c hc with h | h | h | h | h | h | h | h
  · exact hpc c h
  · exact hac c h
  · exact hqc c h
  · exact hfc c h
  all_goals subst h
  all_goals decide

/-! ## C6 lemma stack, part 3: stripping trailing slashes preserves the
parsed netloc -/

theorem rstrip_decomp (x : List Char) :
    ∃ k, x = rstripSlashes x ++ List.replicate k '/' := by
  refine ⟨(x.reverse.takeWhile (· = '/')).length, ?_⟩
  have hsplit : x.reverse.takeWhile (· = '/') ++ x.reverse.dropWhile (· = '/') =
      x.reverse := List.takeWhile_append_dropWhile _ _
  have hrep : x.reverse.takeWhile (· = '/') =
      List.replicate (x.reverse.takeWhile (· = '/')).length '/' := by
    apply List.eq_replicate_of_mem
    intro b hb
    have := List.mem_takeWhile_imp hb
    simpa using this
  calc x = x.reverse.reverse := (List.reverse_reverse x).symm
    _ = (x.reverse.takeWhile (· = '/') ++ x.reverse.dropWhile (· = '/')).reverse := by
        rw [hsplit]
    _ = rstripSlashes x ++ List.replicate (x.reverse.takeWhile (· = '/')).length '/' := by
        rw [List.reverse_append, rstripSlashes]
        congr 1
        rw [hrep]
        simp [List.reverse_replicate]

theorem charIdx_append_replicate_slash (y : List Char) (k : Nat) :
    charIdx ':' (y ++ List.replicate k '/') = charIdx ':' y := by
  cases hci : charIdx ':' y with
  | some i => exact charIdx_append_left _ hci
  | none =>
    rw [charIdx_none_iff]
    intro hm
    rcases List.mem_append.mp hm with h | h
    · exact (charIdx_none_iff.mp hci) h
    · have := List.eq_of_mem_replicate h
      simp at this

theorem schemeSplit_append_slashes (y : List Char) (k : Nat) :
    schemeSplit (y ++ List.replicate k '/') =
      match schemeSplit y with
      | some (s, r) => some (s, r ++ List.replicate k '/')
      | none => none := by
  cases hci : charIdx ':' y with
  | none =>
    have hci2 : charIdx ':' (y ++ List.replicate k '/') = none := by
      rw [charIdx_append_replicate_slash, hci]
    simp only [schemeSplit, hci, hci2]
  | some i =>
    have hlt := charIdx_lt_length hci
    have hne : y ≠ [] := by
      intro h
      subst h
      simp at hlt
    have hci2 : charIdx ':' (y ++ List.replicate k '/') = some i := by
      rw [charIdx_append_replicate_slash, hci]
    have htake : (y ++ List.replicate k '/').take i = y.take i := by
      rw [List.take_append_eq_append_take, show i - y.length = 0 from by omega]
      simp
    have hdrop : (y ++ List.replicate k '/').drop (i + 1) =
        y.drop (i + 1) ++ List.replicate k '/' := by
      rw [List.drop_append_eq_append_drop, show i + 1 - y.length = 0 from by omega]
      simp
    have hhead : ((y ++ List.replicate k '/').headD ' ') = y.headD ' ' :=
      headD_append_of_ne_nil hne ' '
    simp only [schemeSplit, hci, hci2, htake, hdrop, hhead]
    by_cases hc : 0 < i ∧ (y.headD ' ').isAlpha = true ∧ (y.take i).all isSchemeChar = true
    · rw [if_pos hc, if_pos hc]
    · rw [if_neg hc, if_neg hc]

theorem netlocSplit_replicate_fst (n : Nat) :
    (netlocSplit (List.replicate n '/')).1 = [] := by
  cases n with
  | zero => rfl
  | succ m => simp [List.replicate_succ, netlocSplit]

theorem netlocSplit_fst_append_slashes (a : List Char) (k : Nat) :
    (netlocSplit (a ++ List.replicate k '/')).1 = (netlocSplit a).1 := by
  induction a with
  | nil =>
    simp only [List.nil_append]
    rw [netlocSplit_replicate_fst]
    rfl
  | cons d ds ih =>
    simp only [List.cons_append, netlocSplit]
    split
    · rfl
    · simp only [List.append_eq]
      rw [ih]

theorem netlocStage_fst_all_slash (n : Nat) :
    (netlocStage (List.replicate n '/')).1 = [] := by
  match n with
  | 0 => rfl
  | 1 => rfl
  | m + 2 =>
    show (netlocStage ('/' :: '/' :: List.replicate m '/')).1 = []
    rw [netlocStage_slash2]
    exact netlocSplit_replicate_fst m

theorem netlocStage_fst_append_slashes (r : List Char) (k : Nat) :
    (netlocStage (r ++ List.replicate k '/')).1 = (netlocStage r).1 := by
  cases k with
  | zero => simp
  | succ m =>
    cases r with
    | nil =>
      simp only [List.nil_append]
      rw [netlocStage_fst_all_slash]
      rfl
    | cons c cs =>
      cases cs with
      | nil =>
        by_cases hc : c = '/'
        · subst hc
          show (netlocStage ('/' :: List.replicate (m + 1) '/')).1 = _
          rw [show ('/' :: List.replicate (m + 1) '/') = List.replicate (m + 2) '/' from by
            simp [List.replicate_succ]]
          rw [netlocStage_fst_all_slash]
          rfl
        · have h1 : (netlocStage ([c] ++ List.replicate (m + 1) '/')).1 = [] := by
            simp only [netlocStage, List.replicate_succ]
            rw [if_neg (by simp [hc])]
          rw [h1]
          simp [netlocStage]
      | cons c2 cs2 =>
        simp only [List.cons_append, netlocStage, List.take_succ_cons, List.take_zero,
          List.drop_succ_cons, List.drop_zero]
        split
        · exact netlocSplit_fst_append_slashes cs2 (m + 1)
        · rfl

theorem urlsplitC_congr {a b : List Char}
    (h : removeUnsafe a = removeUnsafe b) (ds : List Char) :
    urlsplitC a ds = urlsplitC b ds := by
  simp only [urlsplitC, h]

theorem urlsplitC_netloc_append_slashes (y ds : List Char) (k : Nat)
    (hy : removeUnsafe y = y) :
    (urlsplitC (y ++ List.replicate k '/') ds).netloc = (urlsplitC y ds).netloc := by
  have hrun : removeUnsafe (List.replicate k '/') = List.replicate k '/' :=
    removeUnsafe_eq_self (fun c hc => by rw [List.eq_of_mem_replicate hc]; rfl)
  simp only [urlsplitC, removeUnsafe_append, hy, hrun]
  rw [schemeSplit_append_slashes]
  cases hss : schemeSplit y with
  | none =>
    simp only [hss]
    exact netlocStage_fst_append_slashes y k
  | some p =>
    obtain ⟨s, r⟩ := p
    simp only [hss]
    exact netlocStage_fst_append_slashes r k

/-- Python `rstrip('/')` never changes the netloc a later parse reads. -/
theorem urlsplitC_netloc_rstrip (x ds : List Char) :
    (urlsplitC (rstripSlashes x) ds).netloc = (urlsplitC x ds).netloc := by
  obtain ⟨k, hk⟩ := rstrip_decomp x
  have hy : removeUnsafe (removeUnsafe (rstripSlashes x)) =
      removeUnsafe (rstripSlashes x) :=
    removeUnsafe_eq_self (removeUnsafe_clean _)
  have hrun : removeUnsafe (List.replicate k '/') = List.replicate k '/' :=
    removeUnsafe_eq_self (fun c hc => by rw [List.eq_of_mem_replicate hc]; rfl)
  have h1 : urlsplitC (rstripSlashes x) ds =
      urlsplitC (removeUnsafe (rstripSlashes x)) ds :=
    urlsplitC_congr hy.symm ds
  have h2 : urlsplitC (removeUnsafe (rstripSlashes x) ++ List.replicate k '/') ds =
      urlsplitC x ds := by
    apply urlsplitC_congr
    rw [removeUnsafe_append, hy, hrun]
    conv_rhs => rw [hk]
    rw [removeUnsafe_append, hrun]
  rw [h1, ← h2]
  exact (urlsplitC_netloc_append_slashes _ ds k hy).symm

/-! ## C6 lemma stack, part 4: `should_crawl_url` inversion, path-merge
membership, and composition through `urldefrag`/`normalize_url` -/

theorem should_crawl_spec {l bdS : String} (h : should_crawl_url l bdS = true) :
    ((urlparseC l.data []).scheme = "http".data ∨
      (urlparseC l.data []).scheme = "https".data) ∧
    ((urlparseC l.data []).netloc = [] ∨ (urlparseC l.data []).netloc = bdS.data) := by
  simp only [should_crawl_url] at h
  split at h
  · exact absurd h (by simp)
  · rename_i h1
    split at h
    · exact absurd h (by simp)
    · rename_i h2
      push_neg at h1 h2
      constructor
      · by_cases hh : (urlparseC l.data []).scheme = "http".data
        · exact Or.inl hh
        · exact Or.inr (h1.2 hh)
      · by_cases hn : (urlparseC l.data []).netloc = []
        · exact Or.inl hn
        · exact Or.inr (h2 hn)

theorem urlsplitC_scheme_undetected {x : List Char}
    (h : schemeSplit (removeUnsafe x) = none) (ds : List Char) :
    (urlsplitC x ds).scheme = removeUnsafe ds := by
  simp only [urlsplitC, h]

theorem urlsplitC_detected_of_scheme_ne {x : List Char}
    (h : (urlsplitC x []).scheme ≠ []) :
    ∃ p, schemeSplit (removeUnsafe x) = some p := by
  cases hss : schemeSplit (removeUnsafe x) with
  | some p => exact ⟨p, rfl⟩
  | none => exact absurd (urlsplitC_scheme_undetected hss []) h

theorem urlsplitC_netloc_no_delim (x ds : List Char) :
    ∀ c ∈ (urlsplitC x ds).netloc, ¬(c = '/' ∨ c = '?' ∨ c = '#') := by
  simp only [urlsplitC]
  split <;> exact fun c hc => netlocStage_fst_no_delim hc

theorem urlparseC_self_ds (x : List Char) :
    urlparseC x (urlparseC x []).scheme = urlparseC x [] := by
  cases hss : schemeSplit (removeUnsafe x) with
  | some p => exact urlparseC_of_detected hss _
  | none =>
    have h : (urlparseC x []).scheme = [] := by
      rw [urlparseC_scheme]
      exact urlsplitC_scheme_undetected hss []
    rw [h]

theorem urldefragC_netloc {j nl : List Char}
    (hj : (urlsplitC j []).netloc = nl) (hnl : nl ≠ []) :
    (urlsplitC (urldefragC j).1 []).netloc = nl := by
  simp only [urldefragC]
  split
  · obtain ⟨c1, c2, c3, c4, c5, c6⟩ := urlparseC_clean j []
    have hwf := urlsplitC_scheme_wf j
    rw [← urlparseC_scheme] at hwf
    have hPn : (urlparseC j []).netloc = nl := by
      rw [urlparseC_netloc]
      exact hj
    have hnld : ∀ x ∈ (urlparseC j []).netloc, ¬(x = '/' ∨ x = '?' ∨ x = '#') := by
      rw [urlparseC_netloc]
      exact urlsplitC_netloc_no_delim j []
    have happ := unparse_parse_netloc (urlparseC j []).scheme (urlparseC j []).netloc
      (urlparseC j []).path (urlparseC j []).params (urlparseC j []).query [] []
      hwf c1 (by rw [hPn]; exact hnl) hnld c2 c3 c4 c5 (by simp)
    rw [happ, hPn]
  · rw [urlsplitC_netloc_ds]
    exact hj

/-- Composition: when the absolute URL parses to a non-empty netloc, the
normalized URL parses to the same netloc. -/
theorem normalize_netloc_of_abs (l url : String) {nl : List Char}
    (habs : (urlsplitC (urljoinC url.data l.data) []).netloc = nl) (hnl : nl ≠ []) :
    (urlsplitC (normalize_url l url).data []).netloc = nl := by
  simp only [normalize_url]
  split
  · show (urlsplitC (rstripSlashes ((urldefragC (urljoinC url.data l.data)).1)) []).netloc = nl
    rw [urlsplitC_netloc_rstrip]
    exact urldefragC_netloc habs hnl
  · show (urlsplitC ((urldefragC (urljoinC url.data l.data)).1) []).netloc = nl
    exact urldefragC_netloc habs hnl

/-- Composition: when `urljoin` returns the (fragment-free) URL unchanged,
the normalized URL parses to the URL's own netloc. -/
theorem normalize_netloc_of_verbatim (l url : String)
    (hjoin : urljoinC url.data l.data = l.data) (hhash : '#' ∉ l.data) :
    (urlsplitC (normalize_url l url).data []).netloc = (urlsplitC l.data []).netloc := by
  simp only [normalize_url, hjoin, urldefragC_of_no_hash hhash]
  split
  · show (urlsplitC (rstripSlashes l.data) []).netloc = _
    exact urlsplitC_netloc_rstrip l.data []
  · rfl

theorem mem_joinChar {c sep : Char} :
    ∀ {L : List (List Char)}, c ∈ joinChar sep L → c = sep ∨ ∃ x ∈ L, c ∈ x := by
  intro L
  induction L with
  | nil => intro h; simp [joinChar] at h
  | cons x xs ih =>
    intro h
    cases xs with
    | nil =>
      right
      exact ⟨x, by simp, by simpa [joinChar] using h⟩
    | cons y ys =>
      rw [show joinChar sep (x :: y :: ys) = x ++ sep :: joinChar sep (y :: ys) from rfl]
        at h
      rcases List.mem_append.mp h with h1 | h1
      · exact Or.inr ⟨x, by simp, h1⟩
      · rcases List.mem_cons.mp h1 with h2 | h2
        · exact Or.inl h2
        · rcases ih h2 with h3 | ⟨z, hz, hcz⟩
          · exact Or.inl h3
          · exact Or.inr ⟨z, List.mem_cons_of_mem _ hz, hcz⟩

theorem mem_resolveSegments_aux {x : List Char} :
    ∀ (L : List (List Char)) (acc : List (List Char)),
      x ∈ L.foldl
        (fun acc seg =>
          if seg = ['.', '.'] then acc.dropLast
          else if seg = ['.'] then acc
          else acc ++ [seg]) acc →
      x ∈ acc ∨ x ∈ L := by
  intro L
  induction L with
  | nil => intro acc h; exact Or.inl h
  | cons seg rest ih =>
    intro acc h
    rw [List.foldl_cons] at h
    rcases ih _ h with h1 | h1
    · split at h1
      · exact Or.inl (List.dropLast_subset _ h1)
      · split at h1
        · exact Or.inl h1
        · rcases List.mem_append.mp h1 with h2 | h2
          · exact Or.inl h2
          · simp only [List.mem_singleton] at h2
            exact Or.inr (h2 ▸ List.mem_cons_self _ _)
    · exact Or.inr (List.mem_cons_of_mem _ h1)

theorem mem_resolveSegments {x : List Char} {L : List (List Char)}
    (h : x ∈ resolveSegments L) : x ∈ L := by
  rcases mem_resolveSegments_aux L [] h with h1 | h1
  · simp at h1
  · exact h1

theorem mem_filterMiddle {x : List Char} {L : List (List Char)}
    (h : x ∈ filterMiddle L) : x ∈ L ∨ x = [] := by
  match L with
  | [] => simp [filterMiddle] at h
  | [a] =>
    simp only [filterMiddle] at h
    exact Or.inl h
  | a :: b :: xs =>
    simp only [filterMiddle] at h
    rcases List.mem_cons.mp h with h1 | h1
    · exact Or.inl (h1 ▸ List.mem_cons_self _ _)
    · rcases List.mem_append.mp h1 with h2 | h2
      · have hmf := List.mem_of_mem_filter h2
        have h3 : x ∈ b :: xs := List.dropLast_subset _ hmf
        exact Or.inl (List.mem_cons_of_mem _ h3)
      · simp only [List.mem_singleton] at h2
        subst h2
        cases hgl : (b :: xs).getLastD [] with
        | nil => exact Or.inr rfl
        | cons gc gcs =>
          left
          right
          have hne : (b :: xs) ≠ [] := by simp
          rw [List.getLastD_eq_getLast?, List.getLast?_eq_getLast_of_ne_nil hne] at hgl
          simp only [Option.getD_some] at hgl
          rw [← hgl]
          exact List.getLast_mem hne

theorem mem_splitCharAux {sep : Char} :
    ∀ {l acc x : List Char}, x ∈ splitCharAux sep l acc →
      ∀ c ∈ x, c ∈ l ∨ c ∈ acc := by
  intro l
  induction l with
  | nil =>
    intro acc x h c hc
    simp only [splitCharAux, List.mem_singleton] at h
    subst h
    exact Or.inr (List.mem_reverse.mp hc)
  | cons d ds ih =>
    intro acc x h c hc
    simp only [splitCharAux] at h
    split at h
    · rcases List.mem_cons.mp h with h1 | h1
      · subst h1
        exact Or.inr (List.mem_reverse.mp hc)
      · rcases ih h1 c hc with h2 | h2
        · exact Or.inl (List.mem_cons_of_mem _ h2)
        · simp at h2
    · rcases ih h c hc with h2 | h2
      · exact Or.inl (List.mem_cons_of_mem _ h2)
      · rcases List.mem_cons.mp h2 with h3 | h3
        · exact Or.inl (h3 ▸ List.mem_cons_self _ _)
        · exact Or.inr h3

theorem mem_splitChar {sep : Char} {l x : List Char}
    (h : x ∈ splitChar sep l) : ∀ c ∈ x, c ∈ l := by
  intro c hc
  rcases mem_splitCharAux h c hc with h1 | h1
  · exact h1
  · simp at h1

/-! ## C6 lemma stack, part 5: the `urljoin` branch analysis -/

/-- Every character of the resolved/merged path built by `urljoin` comes
from a segment or is a `'/'`. -/
theorem merged_path_clean (segments : List (List Char)) (P : Char → Prop)
    (hseg : ∀ x ∈ segments, ∀ c ∈ x, P c) (hslash : P '/') :
    ∀ c ∈ (if joinChar '/'
              (if segments.getLastD [] = ['.'] ∨ segments.getLastD [] = ['.', '.'] then
                resolveSegments segments ++ [[]]
              else resolveSegments segments) = [] then
             ['/']
           else
             joinChar '/'
              (if segments.getLastD [] = ['.'] ∨ segments.getLastD [] = ['.', '.'] then
                resolveSegments segments ++ [[]]
              else resolveSegments segments)), P c := by
  intro c hc
  split at hc
  · split at hc
    · simp only [List.mem_singleton] at hc
      subst hc
      exact hslash
    · rcases mem_joinChar hc with rfl | ⟨x, hx, hcx⟩
      · exact hslash
      · rcases List.mem_append.mp hx with h2 | h2
        · exact hseg x (mem_resolveSegments h2) c hcx
        · simp only [List.mem_singleton] at h2
          subst h2
          simp at hcx
  · split at hc
    · simp only [List.mem_singleton] at hc
      subst hc
      exact hslash
    · rcases mem_joinChar hc with rfl | ⟨x, hx, hcx⟩
      · exact hslash
      · exact hseg x (mem_resolveSegments hx) c hcx

/-- The `urljoin` step of `normalize_url`, evaluated on a frontier element:
either the URL passes through verbatim (different scheme) with its own
netloc in `{[], bd}`, or the joined URL parses back to the base's netloc
`bd`. -/
theorem urljoin_frontier (l url : String) (bd : List Char)
    (hb : (urlsplitC url.data []).netloc = bd) (hbd : bd ≠ [])
    (hl : l = url ∨ (should_crawl_url l ⟨bd⟩ = true ∧ '#' ∉ l.data)) :
    ('#' ∉ l.data ∧ urljoinC url.data l.data = l.data ∧
       ((urlsplitC l.data []).netloc = [] ∨ (urlsplitC l.data []).netloc = bd)) ∨
    (urlsplitC (urljoinC url.data l.data) []).netloc = bd := by
  have hbne : url.data ≠ [] := by
    intro h
    rw [h] at hb
    rw [show (urlsplitC ([] : List Char) []).netloc = [] from rfl] at hb
    exact hbd hb.symm
  have hBn : (urlparseC url.data []).netloc = bd := by
    rw [urlparseC_netloc]
    exact hb
  have hBwf := urlsplitC_scheme_wf url.data
  rw [← urlparseC_scheme] at hBwf
  obtain ⟨cB1, cB2, cB3, cB4, cB5, cB6⟩ := urlparseC_clean url.data []
  have hbdd : ∀ x ∈ bd, ¬(x = '/' ∨ x = '?' ∨ x = '#') := by
    rw [← hb]
    exact urlsplitC_netloc_no_delim url.data []
  have hbdc : ∀ c ∈ bd, unsafeChar c = false := by
    rw [← hb]
    exact (urlsplitC_clean url.data []).2.1
  rcases hl with rfl | ⟨hsc, hnohash⟩
  · -- the seed itself
    right
    have hself : urlparseC l.data (urlparseC l.data []).scheme = urlparseC l.data [] :=
      urlparseC_self_ds l.data
    simp only [urljoinC]
    rw [if_neg hbne, if_neg hbne, hself]
    by_cases hrel : (urlparseC l.data []).scheme ∈ uses_relative
    · rw [if_neg (show ¬((urlparseC l.data []).scheme ≠ (urlparseC l.data []).scheme ∨
          (urlparseC l.data []).scheme ∉ uses_relative) from by
        push_neg
        exact ⟨rfl, hrel⟩)]
      by_cases husn : (urlparseC l.data []).scheme ∈ uses_netloc
      · rw [if_pos ⟨husn, by rw [hBn]; exact hbd⟩]
        rw [hBn]
        exact unparse_parse_netloc _ bd _ _ _ _ _ hBwf cB1 hbd hbdd hbdc cB3 cB4 cB5 cB6
      · rw [if_neg (fun hcon => husn hcon.1), if_neg husn, hBn]
        split
        · have hqc2 : ∀ c ∈ (if (urlparseC l.data []).query = [] then
              (urlparseC l.data []).query else (urlparseC l.data []).query),
              unsafeChar c = false := by
            split <;> exact cB5
          exact unparse_parse_netloc _ bd _ _ _ _ _ hBwf cB1 hbd hbdd hbdc cB3 cB4 hqc2 cB6
        · refine unparse_parse_netloc _ bd _ _ _ _ _ hBwf cB1 hbd hbdd hbdc ?_ cB4 cB5 cB6
          refine merged_path_clean _ (fun c => unsafeChar c = false) ?_ (by decide)
          intro x hx c hc
          split at hx
          · exact cB3 c (mem_splitChar hx c hc)
          · rcases mem_filterMiddle hx with h2 | h2
            · rcases List.mem_append.mp h2 with h3 | h3
              · split at h3
                · exact cB3 c (mem_splitChar (List.dropLast_subset _ h3) c hc)
                · exact cB3 c (mem_splitChar h3 c hc)
              · exact cB3 c (mem_splitChar h3 c hc)
            · subst h2
              simp at hc
    · rw [if_pos (Or.inr hrel)]
      exact hb
  · -- a link accepted by should_crawl_url
    have hspec := should_crawl_spec hsc
    have hlne : l.data ≠ [] := by
      intro h
      have h0 : (urlparseC l.data []).scheme = [] := by rw [h]; rfl
      rcases hspec.1 with h1 | h1 <;> rw [h0] at h1 <;> simp at h1
    have hUne : (urlparseC l.data []).scheme ≠ [] := by
      rcases hspec.1 with h1 | h1 <;> rw [h1] <;> simp
    obtain ⟨p, hdet⟩ :=
      urlsplitC_detected_of_scheme_ne (x := l.data) (by rw [← urlparseC_scheme]; exact hUne)
    have hds : urlparseC l.data (urlparseC url.data []).scheme = urlparseC l.data [] :=
      urlparseC_of_detected hdet _
    have hUwf := urlsplitC_scheme_wf l.data
    rw [← urlparseC_scheme] at hUwf
    obtain ⟨cU1, cU2, cU3, cU4, cU5, cU6⟩ := urlparseC_clean l.data []
    by_cases hsame : (urlparseC l.data []).scheme = (urlparseC url.data []).scheme
    · right
      have hrel : (urlparseC l.data []).scheme ∈ uses_relative := by
        rcases hspec.1 with h | h <;> rw [h] <;> decide
      have husn : (urlparseC l.data []).scheme ∈ uses_netloc := by
        rcases hspec.1 with h | h <;> rw [h] <;> decide
      simp only [urljoinC]
      rw [if_neg hbne, if_neg hlne, hds]
      rw [if_neg (show ¬((urlparseC l.data []).scheme ≠ (urlparseC url.data []).scheme ∨
          (urlparseC l.data []).scheme ∉ uses_relative) from by
        push_neg
        exact ⟨hsame, hrel⟩)]
      by_cases hun : (urlparseC l.data []).netloc = []
      · rw [if_neg (fun hcon => hcon.2 hun), if_pos husn, hBn]
        split
        · have hqc2 : ∀ c ∈ (if (urlparseC l.data []).query = [] then
              (urlparseC url.data []).query else (urlparseC l.data []).query),
              unsafeChar c = false := by
            split
            · exact cB5
            · exact cU5
          exact unparse_parse_netloc _ bd _ _ _ _ _ hUwf cU1 hbd hbdd hbdc cB3 cB4 hqc2 cU6
        · refine unparse_parse_netloc _ bd _ _ _ _ _ hUwf cU1 hbd hbdd hbdc ?_ cU4 cU5 cU6
          refine merged_path_clean _ (fun c => unsafeChar c = false) ?_ (by decide)
          intro x hx c hc
          split at hx
          · exact cU3 c (mem_splitChar hx c hc)
          · rcases mem_filterMiddle hx with h2 | h2
            · rcases List.mem_append.mp h2 with h3 | h3
              · split at h3
                · exact cB3 c (mem_splitChar (List.dropLast_subset _ h3) c hc)
                · exact cB3 c (mem_splitChar h3 c hc)
              · exact cU3 c (mem_splitChar h3 c hc)
            · subst h2
              simp at hc
      · have hUn : (urlparseC l.data []).netloc = bd := by
          rcases hspec.2 with h | h
          · exact absurd h hun
          · exact h
        rw [if_pos ⟨husn, hun⟩, hUn]
        exact unparse_parse_netloc _ bd _ _ _ _ _ hUwf cU1 hbd hbdd hbdc cU3 cU4 cU5 cU6
    · left
      refine ⟨hnohash, ?_, ?_⟩
      · simp only [urljoinC]
        rw [if_neg hbne, if_neg hlne, hds, if_pos (Or.inl hsame)]
      · rcases hspec.2 with h | h
        · left
          rw [← urlparseC_netloc]
          exact h
        · right
          rw [← urlparseC_netloc]
          exact h

/-! ## C6 lemma stack, part 6: from frontier elements to result keys -/

/-- Netloc of the key stored for a frontier element: empty or the base
domain. -/
theorem key_netloc (cur url : String) (bd : List Char)
    (hb : (urlsplitC url.data []).netloc = bd) (hbd : bd ≠ [])
    (hcur : cur = url ∨ (should_crawl_url cur ⟨bd⟩ = true ∧ '#' ∉ cur.data)) :
    (urlsplitC (normalize_url cur url).data []).netloc = [] ∨
    (urlsplitC (normalize_url cur url).data []).netloc = bd := by
  rcases urljoin_frontier cur url bd hb hbd hcur with ⟨hh, hj, hn⟩ | habs
  · rw [normalize_netloc_of_verbatim cur url hj hh]
    exact hn
  · exact Or.inr (normalize_netloc_of_abs cur url habs hbd)

/-- Everything `collectLinks` adds to the frontier passed `should_crawl_url`
and is a `normalize_url` output (hence `'#'`-free). -/
theorem mem_collectLinks {bdS p : String} {v : List String} :
    ∀ {hs : List (Option String)} {fr : List String} {x : String},
      x ∈ collectLinks bdS p v hs fr →
      x ∈ fr ∨ (should_crawl_url x bdS = true ∧ '#' ∉ x.data) := by
  intro hs
  induction hs with
  | nil => intro fr x h; exact Or.inl h
  | cons oh hs ih =>
    intro fr x h
    cases oh with
    | none => exact ih h
    | some href =>
      by_cases he : href = ""
      · rw [show collectLinks bdS p v (some href :: hs) fr =
            collectLinks bdS p v hs fr from by
          simp only [collectLinks]
          rw [if_pos he]] at h
        exact ih h
      · by_cases hcond : should_crawl_url (normalize_url href p) bdS = true ∧
            normalize_url href p ∉ v ∧ normalize_url href p ∉ fr
        · rw [show collectLinks bdS p v (some href :: hs) fr =
              collectLinks bdS p v hs (fr ++ [normalize_url href p]) from by
            simp only [collectLinks]
            rw [if_neg he, if_pos hcond]] at h
          rcases ih h with h1 | h1
          · rcases List.mem_append.mp h1 with h2 | h2
            · exact Or.inl h2
            · simp only [List.mem_singleton] at h2
              subst h2
              exact Or.inr ⟨hcond.1, normalize_url_no_hash _ _⟩
          · exact Or.inr h1
        · rw [show collectLinks bdS p v (some href :: hs) fr =
              collectLinks bdS p v hs fr from by
            simp only [collectLinks]
            rw [if_neg he, if_neg hcond]] at h
          exact ih h

/-- Loop invariant: when every frontier element is the start URL or an
accepted fragment-free link, every stored key parses to an empty netloc or
to the base domain. -/
theorem crawl_loop_keys_netloc (env : CrawlEnv) (url : String) (mp : Nat)
    (bd : List Char) (hb : (urlsplitC url.data []).netloc = bd) (hbd : bd ≠ []) :
    ∀ (fuel : Nat) (st : CrawlState),
      (∀ c ∈ st.urls_to_visit,
        c = url ∨ (should_crawl_url c ⟨bd⟩ = true ∧ '#' ∉ c.data)) →
      (∀ k ∈ resultKeys st.results,
        (urlsplitC k.data []).netloc = [] ∨ (urlsplitC k.data []).netloc = bd) →
      ∀ k ∈ resultKeys (crawl_loop env url ⟨bd⟩ mp fuel st).results,
        (urlsplitC k.data []).netloc = [] ∨ (urlsplitC k.data []).netloc = bd := by
  intro fuel
  induction fuel with
  | zero => intro st hf hr; exact hr
  | succ f ih =>
    intro st hf hr
    simp only [crawl_loop]
    split
    · exact hr
    · rename_i cur rest hfr
      split
      · split
        · refine ih _ ?_ hr
          intro c hc
          exact hf c (by rw [hfr]; exact List.mem_cons_of_mem _ hc)
        · have hcur : cur = url ∨ (should_crawl_url cur ⟨bd⟩ = true ∧ '#' ∉ cur.data) :=
            hf cur (by rw [hfr]; exact List.mem_cons_self _ _)
          have hkey := key_netloc cur url bd hb hbd hcur
          split
          · refine ih _ ?_ hr
            intro c hc
            exact hf c (by rw [hfr]; exact List.mem_cons_of_mem _ hc)
          · refine ih _ ?_ ?_
            · intro c hc
              exact hf c (by rw [hfr]; exact List.mem_cons_of_mem _ hc)
            · intro k hk
              rcases mem_keys_append_single hk with hk2 | hk2
              · exact hr k hk2
              · subst hk2
                exact hkey
          · refine ih _ ?_ ?_
            · intro c hc
              rcases mem_collectLinks hc with h1 | h1
              · exact hf c (by rw [hfr]; exact List.mem_cons_of_mem _ h1)
              · exact Or.inr h1
            · intro k hk
              rcases mem_keys_append_single hk with hk2 | hk2
              · exact hr k hk2
              · subst hk2
                exact hkey
      · exact hr

/-- C6 (amended): when the start URL parses to a non-empty host
(`base_domain ≠ ''`), every key of the result map parses to an empty host or
to that base domain; in particular no key carries a non-empty host different
from the start URL's host.  (Scheme-relative or explicit-scheme links
without an authority can still contribute empty-host keys, which is what the
counterexample exhibits against the claim as literally stated.) -/
theorem c6_domain_scope (env : CrawlEnv) (url : String) (max_pages : Nat)
    (visited0 : List String) (fuel : Nat) (st : CrawlState)
    (hbd : (urlparseNetloc url).data ≠ [])
    (hrun : crawl_website env url max_pages visited0 fuel = .ok st) :
    ∀ k ∈ resultKeys st.results,
      urlparseNetloc k = "" ∨ urlparseNetloc k = urlparseNetloc url := by
  simp only [crawl_website] at hrun
  split at hrun
  · simp only [Except.ok.injEq] at hrun
    subst hrun
    have hb : (urlsplitC url.data []).netloc = (urlparseC url.data []).netloc :=
      (urlparseC_netloc url.data []).symm
    have hbd2 : (urlparseC url.data []).netloc ≠ [] := hbd
    have hf : ∀ c ∈ ([url] : List String),
        c = url ∨ (should_crawl_url c ⟨(urlparseC url.data []).netloc⟩ = true ∧
          '#' ∉ c.data) := by
      intro c hc
      simp only [List.mem_singleton] at hc
      exact Or.inl hc
    have hr : ∀ k ∈ resultKeys ([] : List (String × String)),
        (urlsplitC k.data []).netloc = [] ∨
        (urlsplitC k.data []).netloc = (urlparseC url.data []).netloc := by
      intro k hk
      simp [resultKeys] at hk
    have hloop := crawl_loop_keys_netloc env url max_pages
      (urlparseC url.data []).netloc hb hbd2 fuel ⟨[url], visited0, [], []⟩ hf hr
    intro k hk
    rcases hloop k hk with h | h
    · left
      show (⟨(urlparseC k.data []).netloc⟩ : String) = ""
      rw [urlparseC_netloc, h]
    · right
      show (⟨(urlparseC k.data []).netloc⟩ : String) =
        (⟨(urlparseC url.data []).netloc⟩ : String)
      rw [urlparseC_netloc, h]
  · exact absurd hrun (by simp)

theorem c6_domain_scope_witness :
    (urlparseNetloc "http://h/").data ≠ [] ∧
    "http://h/x" ∈ resultKeys ((crawl_loop env10 "http://h/"
      (urlparseNetloc "http://h/") 10 5 ⟨["http://h/"], [], [], []⟩).results) ∧
    (urlparseNetloc "http://h/x" = "" ∨
      urlparseNetloc "http://h/x" = urlparseNetloc "http://h/") :=
  ⟨by decide, by decide,
    c6_domain_scope env10 "http://h/" 10 [] 5 _ (by decide) rfl "http://h/x" (by decide)⟩

/-- C6 as stated is false on the code: a link with an explicit scheme and no
authority (for example `href="https:/evil"` on `http://h/`) parses to an
empty netloc, so the domain filter accepts it, and it becomes a stored key
whose host (the empty string) differs from the start URL's host `h`. -/
theorem c6_counterexample :
    ∃ st, crawl_website crossSchemeEnv "http://h/" 10 [] 5 = .ok st ∧
      "https:/evil" ∈ resultKeys st.results ∧
      urlparseNetloc "https:/evil" ≠ urlparseNetloc "http://h/" :=
  ⟨_, rfl, by decide, by decide⟩

end FeaturePulse
